import Mathlib

/-!
# Verification of the Boggle word-search core (src/boggle.cpp)

Shallow embedding of the word-search core of `boggle.cpp`:
the adjacency predicate `AreNeighbors`, the duplicate check `NotDuplicated`,
the single-word tracer `Findable`, the validity gate `WordIsValid`, the
exhaustive enumerator `FindAllWords` and the driver `ComputerTurn`.

C++ `string` is embedded as `List Char`, `Grid<string>` as a record of the
dimensions together with the cell contents, `Set<string>` as a `List` of
words used up to membership, and the `Lexicon` collaborator as a pair of
boolean oracles.  Display-only calls (`HighlightCube`, `RecordWordForPlayer`,
`Pause`) carry no search state; `RecordWordForPlayer` is modelled by
returning the list of recorded words.
-/

set_option maxHeartbeats 1600000

/-- `ConvertToUpperCase` on a single character (strutils). -/
def toUpperChar (c : Char) : Char :=
  if 'a' ≤ c ∧ c ≤ 'z' then Char.ofNat (c.toNat - 32) else c

/-- `ConvertToUpperCase` from strutils, on the `List Char` view of strings. -/
def ConvertToUpperCase (w : List Char) : List Char := w.map toUpperChar

/-- Struct `locationT`: a row and a column (C++ `int`, so `Int`). -/
structure locationT where
  numRow : Int
  numCol : Int
deriving DecidableEq

/-- `Grid<string>`: fixed dimensions and a cell-content function.
The C++ loops only ever index cells with `0 ≤ i < rows`, `0 ≤ j < cols`. -/
structure GridS where
  rows : Nat
  cols : Nat
  cell : Int → Int → List Char

/-- The external `Lexicon` collaborator: word and prefix membership oracles. -/
structure Lexicon where
  containsWord : List Char → Bool
  containsPrefix : List Char → Bool

/-- `Set<string>::contains` / `Set<string>::add` word set, as a list. -/
def setAdd (s : List (List Char)) (w : List Char) : List (List Char) :=
  if w ∈ s then s else w :: s

/-- Function `AreNeighbors` (boggle.cpp lines 161-171), translated branch by
branch.  Note the sentinel test is on the second coordinate pair. -/
def AreNeighbors (row1 col1 row2 col2 : Int) : Bool :=
  if row2 = -1 ∧ col2 = -1 then true
  else if 1 < row1 - row2 ∨ 1 < row2 - row1 ∨ 1 < col1 - col2 ∨ 1 < col2 - col1 then false
  else if row1 = row2 ∧ col1 = col2 then false
  else true

/-- Function `NotDuplicated` (boggle.cpp lines 181-188): scan the used
locations and fail on the first row/column match. -/
def NotDuplicated (row col : Int) (locations : List locationT) : Bool :=
  locations.all fun l => !(l.numRow == row && l.numCol == col)

theorem notDuplicated_iff (row col : Int) (locations : List locationT) :
    NotDuplicated row col locations = true ↔ locationT.mk row col ∉ locations := by
  simp only [NotDuplicated, List.all_eq_true, Bool.not_eq_true', Bool.and_eq_false_imp]
  constructor
  · intro h hmem
    have := h _ hmem
    simp at this
  · intro h l hl
    by_contra hc
    simp only [beq_iff_eq, Bool.not_eq_false, Bool.and_eq_true] at hc
    exact h (by
      have : l = locationT.mk row col := by
        cases l
        simp_all
      exact this ▸ hl)

theorem notDuplicated_append (row col : Int) (v : List locationT) (x : locationT) :
    NotDuplicated row col (v ++ [x]) = true ↔
      (NotDuplicated row col v = true ∧ x ≠ locationT.mk row col) := by
  rw [notDuplicated_iff, notDuplicated_iff]
  simp only [List.mem_append, List.mem_singleton]
  constructor
  · intro h
    exact ⟨fun hv => h (Or.inl hv), fun hx => h (Or.inr hx.symm)⟩
  · rintro ⟨h1, h2⟩ (hv | hx)
    · exact h1 hv
    · exact h2 hx.symm

/-- Row-major list of the in-range cells, as visited by the C++ nested
`for` loops over rows and columns. -/
def allCells (board : GridS) : List (Nat × Nat) :=
  (List.range board.rows).flatMap fun i => (List.range board.cols).map fun j => (i, j)

theorem mem_allCells {board : GridS} {p : Nat × Nat} :
    p ∈ allCells board ↔ p.1 < board.rows ∧ p.2 < board.cols := by
  obtain ⟨i, j⟩ := p
  simp only [allCells, List.mem_flatMap, List.mem_map, List.mem_range, Prod.mk.injEq]
  constructor
  · rintro ⟨a, ha, b, hb, rfl, rfl⟩
    exact ⟨ha, hb⟩
  · rintro ⟨hi, hj⟩
    exact ⟨i, hi, j, hj, rfl, rfl⟩

/-- Number of in-range cells not yet on the visited list: the termination
measure of both recursive searches. -/
def freeCellsCard (board : GridS) (v : List locationT) : Nat :=
  ((Finset.range board.rows ×ˢ Finset.range board.cols).filter
    fun p => NotDuplicated (p.1 : Int) (p.2 : Int) v = true).card

theorem freeCellsCard_append_le (board : GridS) (v : List locationT) (x : locationT) :
    freeCellsCard board (v ++ [x]) ≤ freeCellsCard board v := by
  apply Finset.card_le_card
  intro p hp
  rw [Finset.mem_filter] at hp ⊢
  refine ⟨hp.1, ?_⟩
  rw [notDuplicated_iff] at hp ⊢
  intro hmem
  exact hp.2 (List.mem_append_left _ hmem)

theorem freeCellsCard_append_lt (board : GridS) (v : List locationT) {row col : Int}
    (h0r : 0 ≤ row) (hr : row < (board.rows : Int)) (h0c : 0 ≤ col)
    (hc : col < (board.cols : Int)) (hnd : NotDuplicated row col v = true) :
    freeCellsCard board (v ++ [locationT.mk row col]) < freeCellsCard board v := by
  apply Finset.card_lt_card
  constructor
  · intro p hp
    rw [Finset.mem_filter] at hp ⊢
    refine ⟨hp.1, ?_⟩
    rw [notDuplicated_iff] at hp ⊢
    intro hmem
    exact hp.2 (List.mem_append_left _ hmem)
  · intro hsub
    have hmem : (row.toNat, col.toNat) ∈
        (Finset.range board.rows ×ˢ Finset.range board.cols).filter
          fun p => NotDuplicated (p.1 : Int) (p.2 : Int) v = true := by
      rw [Finset.mem_filter, Finset.mem_product, Finset.mem_range, Finset.mem_range]
      refine ⟨⟨?_, ?_⟩, ?_⟩
      · omega
      · omega
      · simpa [Int.toNat_of_nonneg h0r, Int.toNat_of_nonneg h0c] using hnd
    have := hsub hmem
    rw [Finset.mem_filter] at this
    have h2 := this.2
    simp only [Int.toNat_of_nonneg h0r, Int.toNat_of_nonneg h0c] at h2
    rw [notDuplicated_iff] at h2
    exact h2 (List.mem_append_right _ (List.mem_singleton.mpr rfl))

mutual

/-- Function `Findable` (boggle.cpp lines 199-219): emit `locations` when the
whole word has been matched, then scan every board cell.  The by-reference
accumulator `answers` is modelled by returning the list of emitted paths in
emission order. -/
def Findable (board : GridS) (word : List Char) (row col : Int)
    (locations : List locationT) : List (List locationT) :=
  let w := ConvertToUpperCase word
  (if w = [] then [locations] else []) ++
    FindableLoop board w row col locations (allCells board)
      (fun _ hp => mem_allCells.mp hp)
termination_by
  ((allCells board).length + 2) * freeCellsCard board locations + (allCells board).length + 1

/-- The nested row/column loop inside `Findable`.  `cands` holds the cells the
loop has not visited yet (row-major), `hc` the invariant that they are in
range.  The C++ `locations.removeAt` backtrack is skipped when `word` is
empty (line 213), so the loop threads the possibly-extended list. -/
def FindableLoop (board : GridS) (w : List Char) (row col : Int)
    (locations : List locationT) (cands : List (Nat × Nat))
    (hc : ∀ p ∈ cands, p.1 < board.rows ∧ p.2 < board.cols) :
    List (List locationT) :=
  match cands with
  | [] => []
  | (i, j) :: rest =>
    if h : board.cell (i : Int) (j : Int) = w.take 1 ∧
        AreNeighbors (i : Int) (j : Int) row col = true ∧
        NotDuplicated (i : Int) (j : Int) locations = true then
      Findable board (w.drop 1) (i : Int) (j : Int)
          (locations ++ [locationT.mk (i : Int) (j : Int)]) ++
        FindableLoop board w row col
          (if w.length ≠ 0 then locations
            else locations ++ [locationT.mk (i : Int) (j : Int)])
          rest (fun p hp => hc p (List.mem_cons_of_mem _ hp))
    else
      FindableLoop board w row col locations rest
        (fun p hp => hc p (List.mem_cons_of_mem _ hp))
termination_by
  ((allCells board).length + 2) * freeCellsCard board locations + cands.length
decreasing_by
· have hin := hc (i, j) (List.mem_cons_self _ _)
  have h1 : freeCellsCard board (locations ++ [locationT.mk (i : Int) (j : Int)]) <
      freeCellsCard board locations :=
    freeCellsCard_append_lt board locations (Int.natCast_nonneg i)
      (by exact_mod_cast hin.1) (Int.natCast_nonneg j) (by exact_mod_cast hin.2) h.2.2
  have h2 : ((allCells board).length + 2) *
        (freeCellsCard board (locations ++ [locationT.mk (i : Int) (j : Int)]) + 1) ≤
      ((allCells board).length + 2) * freeCellsCard board locations :=
    Nat.mul_le_mul_left _ h1
  rw [Nat.mul_add, Nat.mul_one] at h2
  simp only [List.length_cons]
  linarith
· simp only [List.length_cons]
  split
  · linarith
  · have h2 := Nat.mul_le_mul_left ((allCells board).length + 2)
      (freeCellsCard_append_le board locations (locationT.mk (i : Int) (j : Int)))
    linarith
· simp only [List.length_cons]
  linarith

end

mutual

/-- Function `FindAllWords` (boggle.cpp lines 305-325): push the current cell
onto `visited`, append its token to `soFar`, stop on a dead-end prefix,
record `soFar` when it is a fresh dictionary word of length > 3, then recurse
on all not-yet-visited neighbors.  The by-reference `wordsSeen` is threaded
through and returned in the first component; the second component logs the
words passed to `RecordWordForPlayer(..., Computer)`. -/
def FindAllWords (row col : Int) (board : GridS) (lex : Lexicon)
    (wordsSeen : List (List Char)) (soFar : List Char) (visited : List locationT) :
    List (List Char) × List (List Char) :=
  let visited' := visited ++ [locationT.mk row col]
  let soFar' := soFar ++ board.cell row col
  if lex.containsPrefix soFar' = false then (wordsSeen, [])
  else
    let st :=
      if lex.containsWord soFar' = true ∧ soFar' ∉ wordsSeen ∧ 3 < soFar'.length then
        (setAdd wordsSeen soFar', [soFar'])
      else (wordsSeen, [])
    FAWloop board lex soFar' visited' row col (allCells board) st
      (fun _ hp => mem_allCells.mp hp)
termination_by
  ((allCells board).length + 2) * freeCellsCard board visited +
    (if 0 ≤ row ∧ row < (board.rows : Int) ∧ 0 ≤ col ∧ col < (board.cols : Int) ∧
        NotDuplicated row col visited = true then 0 else (allCells board).length + 2)
decreasing_by
· by_cases hg : 0 ≤ row ∧ row < (board.rows : Int) ∧ 0 ≤ col ∧ col < (board.cols : Int) ∧
      NotDuplicated row col visited = true
  · rw [if_pos hg]
    have h1 : freeCellsCard board (visited ++ [locationT.mk row col]) <
        freeCellsCard board visited :=
      freeCellsCard_append_lt board visited hg.1 hg.2.1 hg.2.2.1 hg.2.2.2.1 hg.2.2.2.2
    have h2 : ((allCells board).length + 2) *
          (freeCellsCard board (visited ++ [locationT.mk row col]) + 1) ≤
        ((allCells board).length + 2) * freeCellsCard board visited :=
      Nat.mul_le_mul_left _ h1
    rw [Nat.mul_add, Nat.mul_one] at h2
    linarith
  · rw [if_neg hg]
    have h2 := Nat.mul_le_mul_left ((allCells board).length + 2)
      (freeCellsCard_append_le board visited (locationT.mk row col))
    linarith

/-- The nested row/column loop inside `FindAllWords` (lines 318-324),
threading the accumulated `(wordsSeen, recorded)` state through the
recursive calls in row-major order. -/
def FAWloop (board : GridS) (lex : Lexicon) (soFar : List Char)
    (visited : List locationT) (row col : Int) (cands : List (Nat × Nat))
    (st : List (List Char) × List (List Char))
    (hc : ∀ p ∈ cands, p.1 < board.rows ∧ p.2 < board.cols) :
    List (List Char) × List (List Char) :=
  match cands with
  | [] => st
  | (i, j) :: rest =>
    if AreNeighbors row col (i : Int) (j : Int) = true ∧
        NotDuplicated (i : Int) (j : Int) visited = true then
      let r := FindAllWords (i : Int) (j : Int) board lex st.1 soFar visited
      FAWloop board lex soFar visited row col rest (r.1, st.2 ++ r.2)
        (fun p hp => hc p (List.mem_cons_of_mem _ hp))
    else
      FAWloop board lex soFar visited row col rest st
        (fun p hp => hc p (List.mem_cons_of_mem _ hp))
termination_by
  ((allCells board).length + 2) * freeCellsCard board visited + cands.length + 1
decreasing_by
· rename_i hguard
  have hin := hc (i, j) (List.mem_cons_self _ _)
  have hg : 0 ≤ (i : Int) ∧ (i : Int) < (board.rows : Int) ∧ 0 ≤ (j : Int) ∧
      (j : Int) < (board.cols : Int) ∧ NotDuplicated (i : Int) (j : Int) visited = true :=
    ⟨Int.natCast_nonneg i, by exact_mod_cast hin.1, Int.natCast_nonneg j,
      by exact_mod_cast hin.2, hguard.2⟩
  rw [if_pos hg]
  simp only [List.length_cons]
  linarith
· simp only [List.length_cons]
  linarith
· simp only [List.length_cons]
  linarith

end

mutual

/-- `FindAllWords` with the prefix-pruning check (boggle.cpp lines 311-313)
removed: it always proceeds past the `containsPrefix` test.  Used to settle
the pruning-equivalence claim. -/
def FindAllWordsNP (row col : Int) (board : GridS) (lex : Lexicon)
    (wordsSeen : List (List Char)) (soFar : List Char) (visited : List locationT) :
    List (List Char) × List (List Char) :=
  let visited' := visited ++ [locationT.mk row col]
  let soFar' := soFar ++ board.cell row col
  let st :=
    if lex.containsWord soFar' = true ∧ soFar' ∉ wordsSeen ∧ 3 < soFar'.length then
      (setAdd wordsSeen soFar', [soFar'])
    else (wordsSeen, [])
  FAWloopNP board lex soFar' visited' row col (allCells board) st
    (fun _ hp => mem_allCells.mp hp)
termination_by
  ((allCells board).length + 2) * freeCellsCard board visited +
    (if 0 ≤ row ∧ row < (board.rows : Int) ∧ 0 ≤ col ∧ col < (board.cols : Int) ∧
        NotDuplicated row col visited = true then 0 else (allCells board).length + 2)
decreasing_by
· by_cases hg : 0 ≤ row ∧ row < (board.rows : Int) ∧ 0 ≤ col ∧ col < (board.cols : Int) ∧
      NotDuplicated row col visited = true
  · rw [if_pos hg]
    have h1 : freeCellsCard board (visited ++ [locationT.mk row col]) <
        freeCellsCard board visited :=
      freeCellsCard_append_lt board visited hg.1 hg.2.1 hg.2.2.1 hg.2.2.2.1 hg.2.2.2.2
    have h2 : ((allCells board).length + 2) *
          (freeCellsCard board (visited ++ [locationT.mk row col]) + 1) ≤
        ((allCells board).length + 2) * freeCellsCard board visited :=
      Nat.mul_le_mul_left _ h1
    rw [Nat.mul_add, Nat.mul_one] at h2
    linarith
  · rw [if_neg hg]
    have h2 := Nat.mul_le_mul_left ((allCells board).length + 2)
      (freeCellsCard_append_le board visited (locationT.mk row col))
    linarith

/-- The neighbor loop of the no-pruning variant. -/
def FAWloopNP (board : GridS) (lex : Lexicon) (soFar : List Char)
    (visited : List locationT) (row col : Int) (cands : List (Nat × Nat))
    (st : List (List Char) × List (List Char))
    (hc : ∀ p ∈ cands, p.1 < board.rows ∧ p.2 < board.cols) :
    List (List Char) × List (List Char) :=
  match cands with
  | [] => st
  | (i, j) :: rest =>
    if AreNeighbors row col (i : Int) (j : Int) = true ∧
        NotDuplicated (i : Int) (j : Int) visited = true then
      let r := FindAllWordsNP (i : Int) (j : Int) board lex st.1 soFar visited
      FAWloopNP board lex soFar visited row col rest (r.1, st.2 ++ r.2)
        (fun p hp => hc p (List.mem_cons_of_mem _ hp))
    else
      FAWloopNP board lex soFar visited row col rest st
        (fun p hp => hc p (List.mem_cons_of_mem _ hp))
termination_by
  ((allCells board).length + 2) * freeCellsCard board visited + cands.length + 1
decreasing_by
· rename_i hguard
  have hin := hc (i, j) (List.mem_cons_self _ _)
  have hg : 0 ≤ (i : Int) ∧ (i : Int) < (board.rows : Int) ∧ 0 ≤ (j : Int) ∧
      (j : Int) < (board.cols : Int) ∧ NotDuplicated (i : Int) (j : Int) visited = true :=
    ⟨Int.natCast_nonneg i, by exact_mod_cast hin.1, Int.natCast_nonneg j,
      by exact_mod_cast hin.2, hguard.2⟩
  rw [if_pos hg]
  simp only [List.length_cons]
  linarith
· simp only [List.length_cons]
  linarith
· simp only [List.length_cons]
  linarith

end

/-- Function `WordIsValid` (boggle.cpp lines 229-254): the four checks in
source order.  The cube highlighting on success is display-only. -/
def WordIsValid (word : List Char) (board : GridS) (lex : Lexicon)
    (wordsSeen : List (List Char)) : Bool :=
  if word.length < 4 then false
  else if word ∈ wordsSeen then false
  else if lex.containsWord word = false then false
  else
    let results := Findable board word (-1) (-1) []
    if results.length = 0 then false else true

/-- `WordIsValid` with the by-reference parameters (`board`, `wordsSeen`)
threaded explicitly: every branch of the source body returns without writing
either of them (the highlight calls touch only the display). -/
def WordIsValidS (word : List Char) (board : GridS) (lex : Lexicon)
    (wordsSeen : List (List Char)) : Bool × GridS × List (List Char) :=
  if word.length < 4 then (false, board, wordsSeen)
  else if word ∈ wordsSeen then (false, board, wordsSeen)
  else if lex.containsWord word = false then (false, board, wordsSeen)
  else
    let results := Findable board word (-1) (-1) []
    if results.length = 0 then (false, board, wordsSeen) else (true, board, wordsSeen)

/-- Function `putWordOnBoard` (boggle.cpp lines 262-265): the caller-side
mutation.  Returns the updated word set and the words passed to
`RecordWordForPlayer(..., Human)`; the board is not touched. -/
def putWordOnBoard (board : GridS) (word : List Char)
    (wordsSeen : List (List Char)) : List (List Char) × List (List Char) :=
  (setAdd wordsSeen word, [word])

/-- Function `ComputerTurn` (boggle.cpp lines 333-340): run `FindAllWords`
from every board cell with empty `soFar` and empty `visited`, threading
`wordsSeen` and accumulating the recorded words. -/
def ComputerTurn (board : GridS) (lex : Lexicon) (wordsSeen : List (List Char)) :
    List (List Char) × List (List Char) :=
  (allCells board).foldl
    (fun acc p =>
      let r := FindAllWords (p.1 : Int) (p.2 : Int) board lex acc.1 [] []
      (r.1, acc.2 ++ r.2))
    (wordsSeen, [])

/-- `ComputerTurn` driving the no-pruning enumerator. -/
def ComputerTurnNP (board : GridS) (lex : Lexicon) (wordsSeen : List (List Char)) :
    List (List Char) × List (List Char) :=
  (allCells board).foldl
    (fun acc p =>
      let r := FindAllWordsNP (p.1 : Int) (p.2 : Int) board lex acc.1 [] []
      (r.1, acc.2 ++ r.2))
    (wordsSeen, [])

/-- Concatenation of the board tokens along a path of locations. -/
def tokensOf (board : GridS) (p : List locationT) : List Char :=
  (p.map fun l => board.cell l.numRow l.numCol).flatten

/-- A location lies inside the board. -/
def inRangeLoc (board : GridS) (l : locationT) : Prop :=
  0 ≤ l.numRow ∧ l.numRow < (board.rows : Int) ∧
    0 ≤ l.numCol ∧ l.numCol < (board.cols : Int)

/-- The path extensions a `Findable board w row col locs` call can commit to:
each step matches the cell token against `w.take 1`, checks adjacency to the
previous coordinate and freshness against the locations so far, then strips
one character.  `nil` is the emission point, reached when `w` is gone. -/
inductive FPath (board : GridS) :
    List Char → Int → Int → List locationT → List locationT → Prop
  | nil (row col : Int) (locs : List locationT) : FPath board [] row col locs []
  | cons {w : List Char} {row col : Int} {locs : List locationT} {i j : Nat}
      {ext : List locationT} :
      i < board.rows → j < board.cols →
      board.cell (i : Int) (j : Int) = w.take 1 →
      AreNeighbors (i : Int) (j : Int) row col = true →
      NotDuplicated (i : Int) (j : Int) locs = true →
      FPath board (w.drop 1) (i : Int) (j : Int)
        (locs ++ [locationT.mk (i : Int) (j : Int)]) ext →
      FPath board w row col locs (locationT.mk (i : Int) (j : Int) :: ext)

/-- The words a `FindAllWords` call starting at `(row, col)` with accumulator
`soFar` and visited list `visited` can build while passing every
`containsPrefix` prune on the way. -/
inductive Reach (board : GridS) (lex : Lexicon) :
    Int → Int → List Char → List locationT → List Char → Prop
  | here {row col : Int} {soFar : List Char} {visited : List locationT} :
      lex.containsPrefix (soFar ++ board.cell row col) = true →
      Reach board lex row col soFar visited (soFar ++ board.cell row col)
  | step {row col : Int} {soFar w : List Char} {visited : List locationT} {i j : Nat} :
      lex.containsPrefix (soFar ++ board.cell row col) = true →
      i < board.rows → j < board.cols →
      AreNeighbors row col (i : Int) (j : Int) = true →
      NotDuplicated (i : Int) (j : Int) (visited ++ [locationT.mk row col]) = true →
      Reach board lex (i : Int) (j : Int) (soFar ++ board.cell row col)
        (visited ++ [locationT.mk row col]) w →
      Reach board lex row col soFar visited w

/-- `Reach` for the no-pruning enumerator: no `containsPrefix` side
conditions. -/
inductive ReachNP (board : GridS) (lex : Lexicon) :
    Int → Int → List Char → List locationT → List Char → Prop
  | here {row col : Int} {soFar : List Char} {visited : List locationT} :
      ReachNP board lex row col soFar visited (soFar ++ board.cell row col)
  | step {row col : Int} {soFar w : List Char} {visited : List locationT} {i j : Nat} :
      i < board.rows → j < board.cols →
      AreNeighbors row col (i : Int) (j : Int) = true →
      NotDuplicated (i : Int) (j : Int) (visited ++ [locationT.mk row col]) = true →
      ReachNP board lex (i : Int) (j : Int) (soFar ++ board.cell row col)
        (visited ++ [locationT.mk row col]) w →
      ReachNP board lex row col soFar visited w

theorem areNeighbors_sentinel (row col : Int) : AreNeighbors row col (-1) (-1) = true := by
  unfold AreNeighbors
  rw [if_pos ⟨rfl, rfl⟩]

theorem areNeighbors_true_iff (r1 c1 r2 c2 : Int) (h : ¬(r2 = -1 ∧ c2 = -1)) :
    AreNeighbors r1 c1 r2 c2 = true ↔
      ¬(r1 = r2 ∧ c1 = c2) ∧ (r1 - r2).natAbs ≤ 1 ∧ (c1 - c2).natAbs ≤ 1 := by
  unfold AreNeighbors
  rw [if_neg h]
  split_ifs with h1 h2 <;> simp <;> omega

theorem areNeighbors_symm_of_inRange (r1 c1 r2 c2 : Int)
    (g1 : 0 ≤ r1) (g2 : 0 ≤ c1) (g3 : 0 ≤ r2) (g4 : 0 ≤ c2) :
    AreNeighbors r1 c1 r2 c2 = AreNeighbors r2 c2 r1 c1 := by
  have hs1 : ¬(r2 = -1 ∧ c2 = -1) := by omega
  have hs2 : ¬(r1 = -1 ∧ c1 = -1) := by omega
  have i1 := areNeighbors_true_iff r1 c1 r2 c2 hs1
  have i2 := areNeighbors_true_iff r2 c2 r1 c1 hs2
  rw [Bool.eq_iff_iff, i1, i2]
  constructor
  · rintro ⟨ha, hb, hc⟩
    exact ⟨fun hh => ha ⟨hh.1.symm, hh.2.symm⟩, by omega, by omega⟩
  · rintro ⟨ha, hb, hc⟩
    exact ⟨fun hh => ha ⟨hh.1.symm, hh.2.symm⟩, by omega, by omega⟩

/-- C6: on in-range (non-sentinel) coordinates, `AreNeighbors` is true
exactly when the two coordinates differ and both the row distance and the
column distance are at most 1; hence it is symmetric there and never relates
an in-range coordinate to itself. -/
theorem areNeighbors_spec (r1 c1 r2 c2 : Int)
    (g1 : 0 ≤ r1) (g2 : 0 ≤ c1) (g3 : 0 ≤ r2) (g4 : 0 ≤ c2) :
    (AreNeighbors r1 c1 r2 c2 = true ↔
      ¬(r1 = r2 ∧ c1 = c2) ∧ (r1 - r2).natAbs ≤ 1 ∧ (c1 - c2).natAbs ≤ 1) ∧
    AreNeighbors r1 c1 r2 c2 = AreNeighbors r2 c2 r1 c1 ∧
    AreNeighbors r1 c1 r1 c1 = false := by
  refine ⟨areNeighbors_true_iff r1 c1 r2 c2 (by omega),
    areNeighbors_symm_of_inRange r1 c1 r2 c2 g1 g2 g3 g4, ?_⟩
  have h := areNeighbors_true_iff r1 c1 r1 c1 (by omega)
  rcases hb : AreNeighbors r1 c1 r1 c1 with _ | _
  · rfl
  · exact absurd ⟨rfl, rfl⟩ (h.mp hb).1

/-- Witness for C6 at the concrete in-range pair (0,0) vs (0,1). -/
theorem areNeighbors_spec_witness :
    (AreNeighbors 0 0 0 1 = true ↔
      ¬((0 : Int) = 0 ∧ (0 : Int) = 1) ∧
        ((0 : Int) - 0).natAbs ≤ 1 ∧ ((0 : Int) - 1).natAbs ≤ 1) ∧
    AreNeighbors 0 0 0 1 = AreNeighbors 0 1 0 0 ∧
    AreNeighbors 0 0 0 0 = false :=
  areNeighbors_spec 0 0 0 1 (by decide) (by decide) (by decide) (by decide)

/-- C7 counterexample: with the sentinel as the FIRST pair the predicate is
not universally true on in-range coordinates; (0,2) is in range of the 4x4
game board, yet `AreNeighbors (-1) (-1) 0 2` is false, because the code only
tests the sentinel on the second pair and the column distance 3 exceeds 1. -/
theorem areNeighbors_sentinel_first_cex : AreNeighbors (-1) (-1) 0 2 = false := by decide

/-- C7 amended: the sentinel check is on the second argument pair, so
`AreNeighbors x sentinel` is true for every first pair `x` (this is the call
orientation `Findable` actually uses, seeding with previous = (-1,-1)). -/
theorem areNeighbors_sentinel_second (row col : Int) :
    AreNeighbors row col (-1) (-1) = true :=
  areNeighbors_sentinel row col

/-- C10: the implementation tests the sentinel on the second coordinate pair
only: `AreNeighbors r c (-1) (-1)` is true for every first pair, while with
the sentinel first the result can be false; `WordIsValid` seeds `Findable`
with previous = (-1,-1), which is passed as the second pair in the guard
`AreNeighbors i j row col`, so every board cell is accepted as a start. -/
theorem sentinel_on_second_pair_only :
    (∀ row1 col1 : Int, AreNeighbors row1 col1 (-1) (-1) = true) ∧
      AreNeighbors (-1) (-1) 0 2 = false :=
  ⟨fun r c => areNeighbors_sentinel r c, by decide⟩

/-- C1: `WordIsValid` accepts exactly the words of length at least 4 that
are not yet claimed, are complete lexicon words, and for which the seeded
`Findable` search returns at least one path. -/
theorem wordIsValid_iff (word : List Char) (board : GridS) (lex : Lexicon)
    (wordsSeen : List (List Char)) :
    WordIsValid word board lex wordsSeen = true ↔
      (4 ≤ word.length ∧ word ∉ wordsSeen ∧ lex.containsWord word = true ∧
        Findable board word (-1) (-1) [] ≠ []) := by
  unfold WordIsValid
  dsimp only
  split_ifs with h1 h2 h3 h4
  · simp only [false_iff]
    intro hcon
    omega
  · simp only [false_iff]
    intro hcon
    exact hcon.2.1 h2
  · simp only [false_iff]
    intro hcon
    rw [hcon.2.2.1] at h3
    exact Bool.true_eq_false.mp h3
  · simp only [false_iff]
    intro hcon
    exact hcon.2.2.2 (List.length_eq_zero.mp h4)
  · simp only [true_iff]
    refine ⟨by omega, h2, ?_, ?_⟩
    · rcases hb : lex.containsWord word with _ | _
      · exact absurd hb h3
      · rfl
    · intro hnil
      exact h4 (by rw [hnil]; rfl)

/-- C9: `WordIsValid` never writes its by-reference parameters: the
state-threaded version returns the board and the claimed-words set
unchanged on every branch (accept or reject) and agrees with the boolean
gate; the insertion of an accepted word happens only in the caller-side
`putWordOnBoard`. -/
theorem wordIsValid_frame (word : List Char) (board : GridS) (lex : Lexicon)
    (wordsSeen : List (List Char)) :
    WordIsValidS word board lex wordsSeen =
      (WordIsValid word board lex wordsSeen, board, wordsSeen) ∧
    (putWordOnBoard board word wordsSeen).1 = setAdd wordsSeen word := by
  constructor
  · unfold WordIsValidS WordIsValid
    dsimp only
    split_ifs <;> rfl
  · rfl

theorem toNat_ofNat_valid {n : Nat} (h : n.isValidChar) : (Char.ofNat n).toNat = n := by
  unfold Char.ofNat
  rw [dif_pos h]
  rfl

theorem toUpperChar_toNat {c : Char} (h : 'a' ≤ c ∧ c ≤ 'z') :
    (toUpperChar c).toNat = c.toNat - 32 := by
  have h1 : 97 ≤ c.toNat := Char.le_def.mp h.1
  have h2 : c.toNat ≤ 122 := Char.le_def.mp h.2
  unfold toUpperChar
  rw [if_pos h]
  apply toNat_ofNat_valid
  unfold Nat.isValidChar
  left
  omega

theorem toUpperChar_idem (c : Char) : toUpperChar (toUpperChar c) = toUpperChar c := by
  by_cases h : 'a' ≤ c ∧ c ≤ 'z'
  · have ht := toUpperChar_toNat h
    have h1 : 97 ≤ c.toNat := Char.le_def.mp h.1
    have h2 : c.toNat ≤ 122 := Char.le_def.mp h.2
    set u := toUpperChar c with hu
    have hno : ¬('a' ≤ u ∧ u ≤ 'z') := by
      intro hcon
      have h3 : ('a').toNat ≤ u.toNat := Char.le_def.mp hcon.1
      have ha : ('a').toNat = 97 := rfl
      omega
    show toUpperChar u = u
    unfold toUpperChar
    rw [if_neg hno]
  · unfold toUpperChar
    rw [if_neg h, if_neg h]

theorem convertToUpperCase_idem (w : List Char) :
    ConvertToUpperCase (ConvertToUpperCase w) = ConvertToUpperCase w := by
  unfold ConvertToUpperCase
  rw [List.map_map]
  exact List.map_congr_left fun c _ => toUpperChar_idem c

theorem convertToUpperCase_drop (w : List Char) (n : Nat) :
    ConvertToUpperCase (w.drop n) = (ConvertToUpperCase w).drop n := by
  unfold ConvertToUpperCase
  exact List.map_drop _ _ _

theorem convertToUpperCase_eq_nil_iff (w : List Char) :
    ConvertToUpperCase w = [] ↔ w = [] := by
  unfold ConvertToUpperCase
  exact List.map_eq_nil_iff

/-- Structural properties of a committed extension: all cells in range, the
tokens spell the remaining word, the chain of adjacency checks holds back to
the seeding coordinate, and freshness gives distinctness. -/
theorem fpath_props (board : GridS) {w : List Char} {row col : Int}
    {locs ext : List locationT} (hF : FPath board w row col locs ext) :
    (∀ l ∈ ext, inRangeLoc board l) ∧
    tokensOf board ext = w ∧
    List.Chain (fun a b => AreNeighbors b.numRow b.numCol a.numRow a.numCol = true)
      (locationT.mk row col) ext ∧
    (locs.Nodup → (locs ++ ext).Nodup) := by
  induction hF with
  | nil r c l =>
    refine ⟨by simp, by simp [tokensOf], List.Chain.nil, fun h => by simpa⟩
  | cons hi hj hcell hadj hnd hsub ih =>
    rename_i w row col locs i j ext
    obtain ⟨ihRange, ihTok, ihChain, ihNodup⟩ := ih
    refine ⟨?_, ?_, ?_, ?_⟩
    · intro l hl
      rcases List.mem_cons.mp hl with rfl | hl'
      · refine ⟨Int.natCast_nonneg i, ?_, Int.natCast_nonneg j, ?_⟩
        · show (i : Int) < (board.rows : Int)
          exact_mod_cast hi
        · show (j : Int) < (board.cols : Int)
          exact_mod_cast hj
      · exact ihRange l hl'
    · show board.cell (i : Int) (j : Int) ++ tokensOf board ext = w
      rw [hcell, ihTok]
      exact List.take_append_drop 1 w
    · exact List.Chain.cons hadj ihChain
    · intro hnd0
      have hfresh : locationT.mk (i : Int) (j : Int) ∉ locs :=
        (notDuplicated_iff _ _ _).mp hnd
      have : (locs ++ [locationT.mk (i : Int) (j : Int)]).Nodup := by
        rw [List.nodup_append]
        exact ⟨hnd0, List.nodup_singleton _, by simpa using hfresh⟩
      have h2 := ihNodup this
      rwa [List.append_assoc, List.singleton_append] at h2

/-- Soundness of `Findable` on boards whose in-range tokens are non-empty
(the board invariant): every emitted path is the incoming `locations`
followed by a committed extension. -/
theorem findable_sound_all (board : GridS)
    (Htok : ∀ q ∈ allCells board, board.cell (q.1 : Int) (q.2 : Int) ≠ []) :
    (∀ (word : List Char) (row col : Int) (locations : List locationT),
      ∀ p ∈ Findable board word row col locations,
        ∃ ext, p = locations ++ ext ∧
          FPath board (ConvertToUpperCase word) row col locations ext) ∧
    (∀ (w : List Char) (row col : Int) (locations : List locationT)
      (cands : List (Nat × Nat))
      (hc : ∀ q ∈ cands, q.1 < board.rows ∧ q.2 < board.cols),
      ConvertToUpperCase w = w →
      ∀ p ∈ FindableLoop board w row col locations cands hc,
        ∃ ext, p = locations ++ ext ∧ FPath board w row col locations ext) := by
  apply Findable.mutual_induct board
  · intro word row col locations
    dsimp only
    intro ih p hp
    rw [Findable.eq_def] at hp
    dsimp only at hp
    rcases List.mem_append.mp hp with hp1 | hp2
    · by_cases hnil : ConvertToUpperCase word = []
      · rw [if_pos hnil] at hp1
        rcases List.mem_singleton.mp hp1 with rfl
        exact ⟨[], by simp, by rw [hnil]; exact FPath.nil row col p⟩
      · rw [if_neg hnil] at hp1
        exact absurd hp1 (List.not_mem_nil p)
    · exact ih (convertToUpperCase_idem word) p hp2
  · intro w row col locations hc hc2 hup p hp
    rw [FindableLoop.eq_def] at hp
    dsimp only at hp
    exact absurd hp (List.not_mem_nil p)
  · intro w row col locations i j rest hc h hc2 ih1 ih2 hup p hp
    rw [FindableLoop.eq_def] at hp
    dsimp only at hp
    rw [dif_pos h] at hp
    rcases List.mem_append.mp hp with hp1 | hp2
    · obtain ⟨ext2, hpe, hF⟩ := ih1 p hp1
      rw [convertToUpperCase_drop, hup] at hF
      refine ⟨locationT.mk (i : Int) (j : Int) :: ext2, ?_, ?_⟩
      · rw [hpe, List.append_assoc, List.singleton_append]
      · have hin := hc (i, j) (List.mem_cons_self _ _)
        exact FPath.cons hin.1 hin.2 h.1 h.2.1 h.2.2 hF
    · by_cases hw : w = []
      · have hin := hc (i, j) (List.mem_cons_self _ _)
        have hne := Htok (i, j) (mem_allCells.mpr hin)
        rw [hw] at h
        exact absurd h.1 (by simpa using hne)
      · have hd : (if hl : w.length ≠ 0 then locations
            else locations ++ [locationT.mk (i : Int) (j : Int)]) = locations :=
          dif_pos fun h0 => hw (List.length_eq_zero.mp h0)
        rw [hd] at ih2
        rw [if_pos (show w.length ≠ 0 from fun h0 => hw (List.length_eq_zero.mp h0))] at hp2
        exact ih2 hup p hp2
  · intro w row col locations i j rest hc h hc2 ih hup p hp
    rw [FindableLoop.eq_def] at hp
    dsimp only at hp
    rw [dif_neg h] at hp
    exact ih hup p hp

/-- If some cell of `cands` carries the guard and a sub-result, the loop
emits that sub-result (no threading happens since `w` is non-empty). -/
theorem mem_findableLoop_of (board : GridS) {w : List Char} {row col : Int}
    {locs : List locationT} {i j : Nat} {X : List locationT}
    (hw : w ≠ [])
    (hguard : board.cell (i : Int) (j : Int) = w.take 1 ∧
      AreNeighbors (i : Int) (j : Int) row col = true ∧
      NotDuplicated (i : Int) (j : Int) locs = true)
    (hX : X ∈ Findable board (w.drop 1) (i : Int) (j : Int)
      (locs ++ [locationT.mk (i : Int) (j : Int)])) :
    ∀ (cands : List (Nat × Nat)) (hc : ∀ q ∈ cands, q.1 < board.rows ∧ q.2 < board.cols),
      (i, j) ∈ cands → X ∈ FindableLoop board w row col locs cands hc := by
  intro cands
  induction cands with
  | nil =>
    intro hc hmem
    exact absurd hmem (List.not_mem_nil _)
  | cons hd rest ih =>
    obtain ⟨a, b⟩ := hd
    intro hc hmem
    rw [FindableLoop.eq_def]
    dsimp only
    rcases List.mem_cons.mp hmem with heq | hmem2
    · injection heq with h1 h2
      subst h1
      subst h2
      rw [dif_pos hguard]
      exact List.mem_append_left _ hX
    · by_cases hg : board.cell (a : Int) (b : Int) = w.take 1 ∧
          AreNeighbors (a : Int) (b : Int) row col = true ∧
          NotDuplicated (a : Int) (b : Int) locs = true
      · rw [dif_pos hg]
        apply List.mem_append_right
        rw [if_pos (show w.length ≠ 0 from fun h0 => hw (List.length_eq_zero.mp h0))]
        exact ih _ hmem2
      · rw [dif_neg hg]
        exact ih _ hmem2

/-- Completeness of `Findable` on boards with non-empty in-range tokens:
every committed extension is emitted. -/
theorem findable_complete (board : GridS)
    (Htok : ∀ q ∈ allCells board, board.cell (q.1 : Int) (q.2 : Int) ≠ [])
    {wU : List Char} {row col : Int} {locs ext : List locationT}
    (hF : FPath board wU row col locs ext) :
    ∀ word, ConvertToUpperCase word = wU →
      (locs ++ ext) ∈ Findable board word row col locs := by
  induction hF with
  | nil r c l =>
    intro word hup
    rw [Findable.eq_def]
    dsimp only
    rw [hup, if_pos rfl, List.append_nil]
    exact List.mem_append_left _ (List.mem_singleton.mpr rfl)
  | cons hi hj hcell hadj hnd hsub ih =>
    rename_i w row col locs i j ext
    intro word hup
    have hupW : ConvertToUpperCase w = w := by
      rw [← hup]
      exact convertToUpperCase_idem word
    have hwne : w ≠ [] := by
      intro h0
      have hne := Htok (i, j) (mem_allCells.mpr ⟨hi, hj⟩)
      rw [h0] at hcell
      simp only [List.take_nil] at hcell
      exact hne hcell
    rw [Findable.eq_def]
    dsimp only
    apply List.mem_append_right
    rw [hup]
    have hX : (locs ++ [locationT.mk (i : Int) (j : Int)]) ++ ext ∈
        Findable board (w.drop 1) (i : Int) (j : Int)
          (locs ++ [locationT.mk (i : Int) (j : Int)]) := by
      apply ih (w.drop 1)
      rw [convertToUpperCase_drop, hupW]
    have hmem := mem_findableLoop_of board hwne ⟨hcell, hadj, hnd⟩ hX
      (allCells board) (fun _ hp => mem_allCells.mp hp) (mem_allCells.mpr ⟨hi, hj⟩)
    rwa [List.append_assoc, List.singleton_append] at hmem

/-- `Findable` finds some path exactly when a committed extension exists. -/
theorem findable_ne_nil_iff (board : GridS) (word : List Char)
    (Htok : ∀ q ∈ allCells board, board.cell (q.1 : Int) (q.2 : Int) ≠ []) :
    Findable board word (-1) (-1) [] ≠ [] ↔
      ∃ ext, FPath board (ConvertToUpperCase word) (-1) (-1) [] ext := by
  constructor
  · intro h
    obtain ⟨p, hp⟩ := List.exists_mem_of_ne_nil _ h
    obtain ⟨ext, hpe, hF⟩ := (findable_sound_all board Htok).1 word (-1) (-1) [] p hp
    exact ⟨ext, hF⟩
  · rintro ⟨ext, hF⟩
    exact List.ne_nil_of_mem (findable_complete board Htok hF word rfl)

/-- C4: on a board satisfying the data-model invariant (non-empty tokens),
every path emitted by the seeded `Findable` call has pairwise-distinct
in-range coordinates, consecutive coordinates that pass the adjacency check
(the first one being accepted against the sentinel predecessor (-1,-1)),
and its concatenated board tokens spell exactly the case-normalized queried
word. -/
theorem findable_paths_valid (board : GridS) (word : List Char)
    (Htok : ∀ q ∈ allCells board, board.cell (q.1 : Int) (q.2 : Int) ≠ [])
    (p : List locationT) (hp : p ∈ Findable board word (-1) (-1) []) :
    p.Nodup ∧ (∀ l ∈ p, inRangeLoc board l) ∧
    List.Chain (fun a b => AreNeighbors b.numRow b.numCol a.numRow a.numCol = true)
      (locationT.mk (-1) (-1)) p ∧
    tokensOf board p = ConvertToUpperCase word := by
  obtain ⟨ext, hpe, hF⟩ := (findable_sound_all board Htok).1 word (-1) (-1) [] p hp
  obtain ⟨hRange, hTok, hChain, hNodup⟩ := fpath_props board hF
  rw [List.nil_append] at hpe
  subst hpe
  exact ⟨by simpa using hNodup List.nodup_nil, hRange, hChain, hTok⟩

/-- A 1x4 test board spelling CATS (row-major). -/
def catsBoard : GridS :=
  GridS.mk 1 4 fun i j =>
    if i = 0 ∧ j = 0 then ['C']
    else if i = 0 ∧ j = 1 then ['A']
    else if i = 0 ∧ j = 2 then ['T']
    else if i = 0 ∧ j = 3 then ['S']
    else []

def catsWord : List Char := ['C', 'A', 'T', 'S']

def catsPath : List locationT :=
  [locationT.mk 0 0, locationT.mk 0 1, locationT.mk 0 2, locationT.mk 0 3]

theorem catsPath_fpath : FPath catsBoard catsWord (-1) (-1) [] catsPath := by
  refine @FPath.cons catsBoard catsWord (-1) (-1) [] 0 0 _ (by decide) (by decide)
    (by decide) (by decide) (by decide) ?_
  refine @FPath.cons catsBoard _ _ _ _ 0 1 _ (by decide) (by decide)
    (by decide) (by decide) (by decide) ?_
  refine @FPath.cons catsBoard _ _ _ _ 0 2 _ (by decide) (by decide)
    (by decide) (by decide) (by decide) ?_
  refine @FPath.cons catsBoard _ _ _ _ 0 3 _ (by decide) (by decide)
    (by decide) (by decide) (by decide) ?_
  exact FPath.nil _ _ _

theorem catsPath_mem : catsPath ∈ Findable catsBoard catsWord (-1) (-1) [] := by
  have he : ConvertToUpperCase catsWord = catsWord := by decide
  have hm := findable_complete catsBoard (by decide) catsPath_fpath catsWord he
  simpa using hm

/-- Witness for C4 on the concrete CATS board and its row path. -/
theorem findable_paths_valid_witness :
    catsPath.Nodup ∧ (∀ l ∈ catsPath, inRangeLoc catsBoard l) ∧
    List.Chain (fun a b => AreNeighbors b.numRow b.numCol a.numRow a.numCol = true)
      (locationT.mk (-1) (-1)) catsPath ∧
    tokensOf catsBoard catsPath = ConvertToUpperCase catsWord :=
  findable_paths_valid catsBoard catsWord (by decide) catsPath catsPath_mem

/-- Each cell of a committed extension carries a single-character token
(on a board with non-empty tokens): the match is against `w.take 1`. -/
theorem fpath_single_char (board : GridS)
    (Htok : ∀ q ∈ allCells board, board.cell (q.1 : Int) (q.2 : Int) ≠ [])
    {w : List Char} {row col : Int} {locs ext : List locationT}
    (hF : FPath board w row col locs ext) :
    ∀ l ∈ ext, ∃ c : Char, board.cell l.numRow l.numCol = [c] := by
  induction hF with
  | nil r c l => simp
  | cons hi hj hcell hadj hnd hsub ih =>
    rename_i w row col locs i j ext
    intro l hl
    rcases List.mem_cons.mp hl with rfl | hl2
    · have hne := Htok (i, j) (mem_allCells.mpr ⟨hi, hj⟩)
      rw [hcell] at hne ⊢
      cases w with
      | nil => exact absurd rfl hne
      | cons ch rest => exact ⟨ch, rfl⟩
    · exact ih l hl2

/-- A 1x1 board bearing the combined token "QU". -/
def quBoard : GridS :=
  GridS.mk 1 1 fun i j => if i = 0 ∧ j = 0 then ['Q', 'U'] else []

theorem findable_qu_empty : Findable quBoard ['Q', 'U'] (-1) (-1) [] = [] := by
  by_contra h
  obtain ⟨ext, hF⟩ := (findable_ne_nil_iff quBoard ['Q', 'U'] (by decide)).mp h
  have he : ConvertToUpperCase ['Q', 'U'] = ['Q', 'U'] := by decide
  rw [he] at hF
  cases hF with
  | cons hi hj hcell hadj hnd hsub =>
    rename_i i j ext2
    have hr : quBoard.rows = 1 := rfl
    have hcc : quBoard.cols = 1 := rfl
    rw [hr] at hi
    rw [hcc] at hj
    have hi0 : i = 0 := by omega
    have hj0 : j = 0 := by omega
    subst hi0
    subst hj0
    exact absurd hcell (by decide)

/-- C5 counterexample: the single cell of `quBoard` bears the token "QU", so
per the claim the word "QU" should be traceable through it (its tokens spell
the word), yet `Findable` returns no path: the code compares the whole token
with `word.substr(0,1)`, one character. -/
theorem multi_char_token_cex :
    tokensOf quBoard [locationT.mk 0 0] = ['Q', 'U'] ∧
      Findable quBoard ['Q', 'U'] (-1) (-1) [] = [] :=
  ⟨by decide, findable_qu_empty⟩

/-- C5 amended: a cell matches only when its token equals the ONE-character
string `word.substr(0,1)`, and the recursion strips exactly one character;
consequently every cell of an emitted path carries a single-character token
and the tokens along the path spell the case-normalized word, so a
multi-character token such as "QU" never takes part in a trace. -/
theorem findable_single_char_matching (board : GridS) (word : List Char)
    (Htok : ∀ q ∈ allCells board, board.cell (q.1 : Int) (q.2 : Int) ≠ [])
    (p : List locationT) (hp : p ∈ Findable board word (-1) (-1) []) :
    (∀ l ∈ p, ∃ c : Char, board.cell l.numRow l.numCol = [c]) ∧
    tokensOf board p = ConvertToUpperCase word := by
  obtain ⟨ext, hpe, hF⟩ := (findable_sound_all board Htok).1 word (-1) (-1) [] p hp
  rw [List.nil_append] at hpe
  subst hpe
  exact ⟨fpath_single_char board Htok hF, (fpath_props board hF).2.1⟩

/-- Witness for the amended C5 on the CATS board. -/
theorem findable_single_char_matching_witness :
    (∀ l ∈ catsPath, ∃ c : Char, catsBoard.cell l.numRow l.numCol = [c]) ∧
    tokensOf catsBoard catsPath = ConvertToUpperCase catsWord :=
  findable_single_char_matching catsBoard catsWord (by decide) catsPath catsPath_mem

/-- A word containing a character (after case normalization) that occurs in
no board token can never be traced: both the tracer and its loop return
empty results, on any board whatsoever. -/
theorem findable_absent_char_all (board : GridS) (c : Char)
    (habs : ∀ q ∈ allCells board, c ∉ board.cell (q.1 : Int) (q.2 : Int)) :
    (∀ (word : List Char) (row col : Int) (locations : List locationT),
      c ∈ ConvertToUpperCase word → Findable board word row col locations = []) ∧
    (∀ (w : List Char) (row col : Int) (locations : List locationT)
      (cands : List (Nat × Nat))
      (hc : ∀ q ∈ cands, q.1 < board.rows ∧ q.2 < board.cols),
      ConvertToUpperCase w = w → c ∈ w →
      FindableLoop board w row col locations cands hc = []) := by
  apply Findable.mutual_induct board
  · intro word row col locations
    dsimp only
    intro ih hcw
    rw [Findable.eq_def]
    dsimp only
    rw [if_neg (List.ne_nil_of_mem hcw), List.nil_append]
    exact ih (convertToUpperCase_idem word) hcw
  · intro w row col locations hc hc2 hup hcw
    rw [FindableLoop.eq_def]
  · intro w row col locations i j rest hc h hc2 ih1 ih2 hup hcw
    rw [FindableLoop.eq_def]
    dsimp only
    rw [dif_pos h]
    have hsub : Findable board (w.drop 1) (i : Int) (j : Int)
        (locations ++ [locationT.mk (i : Int) (j : Int)]) = [] := by
      apply ih1
      rw [convertToUpperCase_drop, hup]
      rcases List.mem_append.mp ((List.take_append_drop 1 w) ▸ hcw) with h1 | h2
      · exfalso
        have hin := hc (i, j) (List.mem_cons_self _ _)
        apply habs (i, j) (mem_allCells.mpr hin)
        rw [h.1]
        exact h1
      · exact h2
    rw [hsub, List.nil_append]
    exact ih2 hup hcw
  · intro w row col locations i j rest hc h hc2 ih hup hcw
    rw [FindableLoop.eq_def]
    dsimp only
    rw [dif_neg h]
    exact ih hup hcw

/-- C8: `Findable` and `FindAllWords` are total functions (they are defined
by well-founded recursion accepted above; the word shortens or the visited
set grows at every call), and a word containing a character that appears on
no board cell yields an empty `Findable` result and a `false` verdict from
`WordIsValid`, with no fault, regardless of the lexicon. -/
theorem findable_total_absent_char (board : GridS) (lex : Lexicon)
    (wordsSeen : List (List Char)) (word : List Char) (c : Char)
    (hcw : c ∈ ConvertToUpperCase word)
    (habs : ∀ q ∈ allCells board, c ∉ board.cell (q.1 : Int) (q.2 : Int)) :
    Findable board word (-1) (-1) [] = [] ∧
      WordIsValid word board lex wordsSeen = false := by
  have hemp := (findable_absent_char_all board c habs).1 word (-1) (-1) [] hcw
  refine ⟨hemp, ?_⟩
  unfold WordIsValid
  dsimp only
  split_ifs with h1 h2 h3 h4
  · rfl
  · rfl
  · rfl
  · rfl
  · exact absurd (by rw [hemp]; rfl) h4

/-- Witness for C8: the word BBBB on the 1x1 board bearing only A. -/
def aBoard : GridS := GridS.mk 1 1 fun i j => if i = 0 ∧ j = 0 then ['A'] else []

theorem findable_total_absent_char_witness :
    Findable aBoard ['B', 'B', 'B', 'B'] (-1) (-1) [] = [] ∧
      WordIsValid ['B', 'B', 'B', 'B'] aBoard
        (Lexicon.mk (fun _ => true) (fun _ => true)) [] = false :=
  findable_total_absent_char aBoard (Lexicon.mk (fun _ => true) (fun _ => true)) []
    ['B', 'B', 'B', 'B'] 'B' (by decide) (by decide)

theorem mem_setAdd {s : List (List Char)} {u v : List Char} :
    v ∈ setAdd s u ↔ v = u ∨ v ∈ s := by
  unfold setAdd
  split_ifs with h
  · constructor
    · exact Or.inr
    · rintro (rfl | hv)
      · exact h
      · exact hv
  · exact List.mem_cons

theorem bool_eq_true_of_not_false {b : Bool} (h : ¬b = false) : b = true := by
  cases b
  · exact absurd rfl h
  · rfl

/-- Some candidate cell passes the neighbor/duplicate guards and reaches
`w`: the disjunction the neighbor loop contributes. -/
def LoopReach (board : GridS) (lex : Lexicon) (soFar : List Char)
    (visited : List locationT) (row col : Int) (cands : List (Nat × Nat))
    (w : List Char) : Prop :=
  ∃ q ∈ cands, AreNeighbors row col (q.1 : Int) (q.2 : Int) = true ∧
    NotDuplicated (q.1 : Int) (q.2 : Int) visited = true ∧
    Reach board lex (q.1 : Int) (q.2 : Int) soFar visited w

theorem loopReach_cons {board lex soFar visited row col} {i j : Nat}
    {rest : List (Nat × Nat)} {w : List Char} :
    LoopReach board lex soFar visited row col ((i, j) :: rest) w ↔
      ((AreNeighbors row col (i : Int) (j : Int) = true ∧
        NotDuplicated (i : Int) (j : Int) visited = true ∧
        Reach board lex (i : Int) (j : Int) soFar visited w) ∨
        LoopReach board lex soFar visited row col rest w) := by
  unfold LoopReach
  constructor
  · rintro ⟨q, hq, hadj, hnd, hr⟩
    rcases List.mem_cons.mp hq with rfl | hq2
    · exact Or.inl ⟨hadj, hnd, hr⟩
    · exact Or.inr ⟨q, hq2, hadj, hnd, hr⟩
  · rintro (⟨hadj, hnd, hr⟩ | ⟨q, hq, hadj, hnd, hr⟩)
    · exact ⟨(i, j), List.mem_cons_self _ _, hadj, hnd, hr⟩
    · exact ⟨q, List.mem_cons_of_mem _ hq, hadj, hnd, hr⟩

theorem loopReach_nil {board lex soFar visited row col w} :
    ¬LoopReach board lex soFar visited row col [] w := by
  rintro ⟨q, hq, _⟩
  exact List.not_mem_nil q hq

theorem reach_pfx {board lex} {row col : Int} {soFar visited w}
    (h : Reach board lex row col soFar visited w) :
    lex.containsPrefix (soFar ++ board.cell row col) = true := by
  cases h with
  | here hp => exact hp
  | step hp hi hj hadj hnd hsub => exact hp

theorem reach_iff (board : GridS) (lex : Lexicon) (row col : Int)
    (soFar : List Char) (visited : List locationT) (w : List Char) :
    Reach board lex row col soFar visited w ↔
      (lex.containsPrefix (soFar ++ board.cell row col) = true ∧
        (w = soFar ++ board.cell row col ∨
          LoopReach board lex (soFar ++ board.cell row col)
            (visited ++ [locationT.mk row col]) row col (allCells board) w)) := by
  constructor
  · intro h
    cases h with
    | here hp => exact ⟨hp, Or.inl rfl⟩
    | step hp hi hj hadj hnd hsub =>
      rename_i i j
      exact ⟨hp, Or.inr ⟨(i, j), mem_allCells.mpr ⟨hi, hj⟩, hadj, hnd, hsub⟩⟩
  · rintro ⟨hp, rfl | ⟨⟨i, j⟩, hq, hadj, hnd, hsub⟩⟩
    · exact Reach.here hp
    · exact Reach.step hp (mem_allCells.mp hq).1 (mem_allCells.mp hq).2 hadj hnd hsub

/-- Characterization of the enumerator: the returned word set is the input
set plus every pruning-surviving reachable dictionary word of length > 3,
and the recorded log holds exactly the returned words that were new. -/
theorem findAllWords_spec_all :
    (∀ (row col : Int) (board : GridS) (lex : Lexicon) (wordsSeen : List (List Char))
      (soFar : List Char) (visited : List locationT),
      ∀ w : List Char,
        (w ∈ (FindAllWords row col board lex wordsSeen soFar visited).1 ↔
          w ∈ wordsSeen ∨ (Reach board lex row col soFar visited w ∧
            lex.containsWord w = true ∧ 3 < w.length)) ∧
        (w ∈ (FindAllWords row col board lex wordsSeen soFar visited).2 ↔
          (w ∉ wordsSeen ∧ w ∈ (FindAllWords row col board lex wordsSeen soFar visited).1))) ∧
    (∀ (board : GridS) (lex : Lexicon) (soFar : List Char) (visited : List locationT)
      (row col : Int) (cands : List (Nat × Nat)) (st : List (List Char) × List (List Char))
      (hc : ∀ q ∈ cands, q.1 < board.rows ∧ q.2 < board.cols),
      ∀ w : List Char,
        (w ∈ (FAWloop board lex soFar visited row col cands st hc).1 ↔
          w ∈ st.1 ∨ (LoopReach board lex soFar visited row col cands w ∧
            lex.containsWord w = true ∧ 3 < w.length)) ∧
        (w ∈ (FAWloop board lex soFar visited row col cands st hc).2 ↔
          (w ∈ st.2 ∨ (w ∉ st.1 ∧
            w ∈ (FAWloop board lex soFar visited row col cands st hc).1)))) := by
  apply FindAllWords.mutual_induct
  · -- dead-end prefix: the call returns (wordsSeen, [])
    intro row col board lex wordsSeen soFar visited
    dsimp only
    intro hpre w
    rw [FindAllWords.eq_def]
    dsimp only
    rw [if_pos hpre]
    constructor
    · constructor
      · exact Or.inl
      · rintro (hs | ⟨hr, hword, hlen⟩)
        · exact hs
        · rw [reach_pfx hr] at hpre
          exact absurd hpre (by decide)
    · constructor
      · intro hw
        exact absurd hw (List.not_mem_nil w)
      · rintro ⟨hns, hs⟩
        exact absurd hs hns
  · -- live prefix: record when fresh, then run the neighbor loop
    intro row col board lex wordsSeen soFar visited
    dsimp only
    intro hpre ih w
    have hpt : lex.containsPrefix (soFar ++ board.cell row col) = true :=
      bool_eq_true_of_not_false hpre
    rw [FindAllWords.eq_def]
    dsimp only
    rw [if_neg hpre]
    by_cases hg : lex.containsWord (soFar ++ board.cell row col) = true ∧
        (soFar ++ board.cell row col) ∉ wordsSeen ∧ 3 < (soFar ++ board.cell row col).length
    · rw [dif_pos hg] at ih
      rw [if_pos hg]
      obtain ⟨ih1, ih2⟩ := ih w
      dsimp only at ih1 ih2
      constructor
      · rw [ih1]
        constructor
        · rintro (hst | ⟨hlr, hword, hlen⟩)
          · rcases mem_setAdd.mp hst with rfl | hseen
            · exact Or.inr ⟨(reach_iff _ _ _ _ _ _ _).mpr ⟨hpt, Or.inl rfl⟩, hg.1, hg.2.2⟩
            · exact Or.inl hseen
          · exact Or.inr ⟨(reach_iff _ _ _ _ _ _ _).mpr ⟨hpt, Or.inr hlr⟩, hword, hlen⟩
        · rintro (hseen | ⟨hr, hword, hlen⟩)
          · exact Or.inl (mem_setAdd.mpr (Or.inr hseen))
          · rcases ((reach_iff _ _ _ _ _ _ _).mp hr).2 with rfl | hlr
            · exact Or.inl (mem_setAdd.mpr (Or.inl rfl))
            · exact Or.inr ⟨hlr, hword, hlen⟩
      · rw [ih2, ih1]
        constructor
        · rintro (hmem | ⟨hnst, hin⟩)
          · rcases List.mem_singleton.mp hmem with rfl
            exact ⟨hg.2.1, Or.inl (mem_setAdd.mpr (Or.inl rfl))⟩
          · exact ⟨fun hseen => hnst (mem_setAdd.mpr (Or.inr hseen)), by rw [← ih1] at hin; rw [ih1] at hin; exact hin⟩
        · rintro ⟨hnseen, hin⟩
          by_cases hst : w ∈ setAdd wordsSeen (soFar ++ board.cell row col)
          · rcases mem_setAdd.mp hst with rfl | h2
            · exact Or.inl (List.mem_singleton.mpr rfl)
            · exact absurd h2 hnseen
          · exact Or.inr ⟨hst, hin⟩
    · rw [dif_neg hg] at ih
      rw [if_neg hg]
      obtain ⟨ih1, ih2⟩ := ih w
      dsimp only at ih1 ih2
      constructor
      · rw [ih1]
        constructor
        · rintro (hseen | ⟨hlr, hword, hlen⟩)
          · exact Or.inl hseen
          · exact Or.inr ⟨(reach_iff _ _ _ _ _ _ _).mpr ⟨hpt, Or.inr hlr⟩, hword, hlen⟩
        · rintro (hseen | ⟨hr, hword, hlen⟩)
          · exact Or.inl hseen
          · rcases ((reach_iff _ _ _ _ _ _ _).mp hr).2 with rfl | hlr
            · have hseen : soFar ++ board.cell row col ∈ wordsSeen := by
                by_contra hns
                exact hg ⟨hword, hns, hlen⟩
              exact Or.inl hseen
            · exact Or.inr ⟨hlr, hword, hlen⟩
      · rw [ih2]
        constructor
        · rintro (hmem | h)
          · exact absurd hmem (List.not_mem_nil w)
          · exact h
        · exact Or.inr
  · -- empty candidate list: the loop returns its accumulator
    intro board lex soFar visited row col st hc hc2 w
    rw [FAWloop.eq_def]
    dsimp only
    constructor
    · constructor
      · exact Or.inl
      · rintro (hs | ⟨hlr, _⟩)
        · exact hs
        · exact absurd hlr loopReach_nil
    · constructor
      · exact Or.inl
      · rintro (hs | ⟨hns, hs2⟩)
        · exact hs
        · exact absurd hs2 hns
  · -- candidate passes the guards: recurse, then continue the loop
    intro board lex soFar visited row col st i j rest hc hg
    dsimp only
    intro hc2 ih1 ih2 w
    rw [FAWloop.eq_def]
    dsimp only
    rw [if_pos hg]
    obtain ⟨ih1a, ih1b⟩ := ih1 w
    obtain ⟨ih2a, ih2b⟩ := ih2 w
    constructor
    · rw [ih2a, loopReach_cons]
      constructor
      · rintro (hr1 | ⟨hlr, hword, hlen⟩)
        · rcases ih1a.mp hr1 with hst | ⟨hreach, hword, hlen⟩
          · exact Or.inl hst
          · exact Or.inr ⟨Or.inl ⟨hg.1, hg.2, hreach⟩, hword, hlen⟩
        · exact Or.inr ⟨Or.inr hlr, hword, hlen⟩
      · rintro (hst | ⟨⟨hadj, hnd, hreach⟩ | hlr, hword, hlen⟩)
        · exact Or.inl (ih1a.mpr (Or.inl hst))
        · exact Or.inl (ih1a.mpr (Or.inr ⟨hreach, hword, hlen⟩))
        · exact Or.inr ⟨hlr, hword, hlen⟩
    · rw [ih2b]
      constructor
      · rintro (hmem | ⟨hnr1, hin⟩)
        · rcases List.mem_append.mp hmem with hst2 | hr2
          · exact Or.inl hst2
          · obtain ⟨hnst, hinr⟩ := ih1b.mp hr2
            exact Or.inr ⟨hnst, ih2a.mpr (Or.inl hinr)⟩
        · refine Or.inr ⟨fun hst => hnr1 (ih1a.mpr (Or.inl hst)), hin⟩
      · rintro (hst2 | ⟨hnst, hin⟩)
        · exact Or.inl (List.mem_append_left _ hst2)
        · by_cases hr1 : w ∈ (FindAllWords (i : Int) (j : Int) board lex st.1 soFar visited).1
          · exact Or.inl (List.mem_append_right _ (ih1b.mpr ⟨hnst, hr1⟩))
          · exact Or.inr ⟨hr1, hin⟩
  · -- candidate fails the guards: skip it
    intro board lex soFar visited row col st i j rest hc hg hc2 ih w
    rw [FAWloop.eq_def]
    dsimp only
    rw [if_neg hg]
    obtain ⟨iha, ihb⟩ := ih w
    constructor
    · rw [iha, loopReach_cons]
      constructor
      · rintro (hst | ⟨hlr, hword, hlen⟩)
        · exact Or.inl hst
        · exact Or.inr ⟨Or.inr hlr, hword, hlen⟩
      · rintro (hst | ⟨⟨hadj, hnd, hreach⟩ | hlr, hword, hlen⟩)
        · exact Or.inl hst
        · exact absurd ⟨hadj, hnd⟩ hg
        · exact Or.inr ⟨hlr, hword, hlen⟩
    · exact ihb

/-- Some starting cell reaches `w` with empty accumulator and empty visited
list: exactly what `ComputerTurn` tries. -/
def StartReach (board : GridS) (lex : Lexicon) (w : List Char) : Prop :=
  ∃ q ∈ allCells board, Reach board lex (q.1 : Int) (q.2 : Int) [] [] w

theorem computerTurn_fold_spec (board : GridS) (lex : Lexicon) :
    ∀ (cells : List (Nat × Nat)) (acc : List (List Char) × List (List Char))
      (w : List Char),
      (w ∈ (cells.foldl
          (fun acc p =>
            let r := FindAllWords (p.1 : Int) (p.2 : Int) board lex acc.1 [] []
            (r.1, acc.2 ++ r.2)) acc).1 ↔
        w ∈ acc.1 ∨ ((∃ q ∈ cells, Reach board lex (q.1 : Int) (q.2 : Int) [] [] w) ∧
          lex.containsWord w = true ∧ 3 < w.length)) ∧
      (w ∈ (cells.foldl
          (fun acc p =>
            let r := FindAllWords (p.1 : Int) (p.2 : Int) board lex acc.1 [] []
            (r.1, acc.2 ++ r.2)) acc).2 ↔
        (w ∈ acc.2 ∨ (w ∉ acc.1 ∧ w ∈ (cells.foldl
          (fun acc p =>
            let r := FindAllWords (p.1 : Int) (p.2 : Int) board lex acc.1 [] []
            (r.1, acc.2 ++ r.2)) acc).1))) := by
  intro cells
  induction cells with
  | nil =>
    intro acc w
    constructor
    · simp
    · constructor
      · exact Or.inl
      · rintro (h | ⟨hn, hi⟩)
        · exact h
        · exact absurd hi hn
  | cons q cells ih =>
    obtain ⟨qi, qj⟩ := q
    intro acc w
    rw [List.foldl_cons]
    dsimp only
    obtain ⟨iha, ihb⟩ := ih (((FindAllWords (qi : Int) (qj : Int) board lex acc.1 [] []).1,
      acc.2 ++ (FindAllWords (qi : Int) (qj : Int) board lex acc.1 [] []).2)) w
    obtain ⟨sa, sb⟩ := (findAllWords_spec_all.1 (qi : Int) (qj : Int) board lex acc.1 [] []) w
    constructor
    · rw [iha]
      dsimp only
      rw [sa]
      constructor
      · rintro ((hacc | ⟨hr, hword, hlen⟩) | ⟨⟨q2, hq2, hr2⟩, hword, hlen⟩)
        · exact Or.inl hacc
        · exact Or.inr ⟨⟨(qi, qj), List.mem_cons_self _ _, hr⟩, hword, hlen⟩
        · exact Or.inr ⟨⟨q2, List.mem_cons_of_mem _ hq2, hr2⟩, hword, hlen⟩
      · rintro (hacc | ⟨⟨q2, hq2, hr2⟩, hword, hlen⟩)
        · exact Or.inl (Or.inl hacc)
        · rcases List.mem_cons.mp hq2 with rfl | hq3
          · exact Or.inl (Or.inr ⟨hr2, hword, hlen⟩)
          · exact Or.inr ⟨⟨q2, hq3, hr2⟩, hword, hlen⟩
    · rw [ihb]
      dsimp only
      constructor
      · rintro (hm | ⟨hnr1, hin⟩)
        · rcases List.mem_append.mp hm with h2 | h2
          · exact Or.inl h2
          · obtain ⟨hna, hinr⟩ := sb.mp h2
            exact Or.inr ⟨hna, iha.mpr (Or.inl hinr)⟩
        · refine Or.inr ⟨fun hacc => hnr1 (sa.mpr (Or.inl hacc)), hin⟩
      · rintro (hm | ⟨hnacc, hin⟩)
        · exact Or.inl (List.mem_append_left _ hm)
        · by_cases hr1 : w ∈ (FindAllWords (qi : Int) (qj : Int) board lex acc.1 [] []).1
          · exact Or.inl (List.mem_append_right _ (sb.mpr ⟨hnacc, hr1⟩))
          · exact Or.inr ⟨hr1, hin⟩

/-- The set and log returned by `ComputerTurn`. -/
theorem computerTurn_spec (board : GridS) (lex : Lexicon)
    (wordsSeen : List (List Char)) (w : List Char) :
    (w ∈ (ComputerTurn board lex wordsSeen).1 ↔
      w ∈ wordsSeen ∨ (StartReach board lex w ∧ lex.containsWord w = true ∧ 3 < w.length)) ∧
    (w ∈ (ComputerTurn board lex wordsSeen).2 ↔
      (w ∉ wordsSeen ∧ w ∈ (ComputerTurn board lex wordsSeen).1)) := by
  have h := computerTurn_fold_spec board lex (allCells board) (wordsSeen, []) w
  unfold ComputerTurn
  unfold StartReach
  refine ⟨h.1, ?_⟩
  rw [h.2]
  dsimp only
  constructor
  · rintro (hm | h2)
    · exact absurd hm (List.not_mem_nil w)
    · exact h2
  · exact Or.inr

/-- `LoopReach` for the no-pruning enumerator. -/
def LoopReachNP (board : GridS) (lex : Lexicon) (soFar : List Char)
    (visited : List locationT) (row col : Int) (cands : List (Nat × Nat))
    (w : List Char) : Prop :=
  ∃ q ∈ cands, AreNeighbors row col (q.1 : Int) (q.2 : Int) = true ∧
    NotDuplicated (q.1 : Int) (q.2 : Int) visited = true ∧
    ReachNP board lex (q.1 : Int) (q.2 : Int) soFar visited w

theorem loopReachNP_cons {board lex soFar visited row col} {i j : Nat}
    {rest : List (Nat × Nat)} {w : List Char} :
    LoopReachNP board lex soFar visited row col ((i, j) :: rest) w ↔
      ((AreNeighbors row col (i : Int) (j : Int) = true ∧
        NotDuplicated (i : Int) (j : Int) visited = true ∧
        ReachNP board lex (i : Int) (j : Int) soFar visited w) ∨
        LoopReachNP board lex soFar visited row col rest w) := by
  unfold LoopReachNP
  constructor
  · rintro ⟨q, hq, hadj, hnd, hr⟩
    rcases List.mem_cons.mp hq with rfl | hq2
    · exact Or.inl ⟨hadj, hnd, hr⟩
    · exact Or.inr ⟨q, hq2, hadj, hnd, hr⟩
  · rintro (⟨hadj, hnd, hr⟩ | ⟨q, hq, hadj, hnd, hr⟩)
    · exact ⟨(i, j), List.mem_cons_self _ _, hadj, hnd, hr⟩
    · exact ⟨q, List.mem_cons_of_mem _ hq, hadj, hnd, hr⟩

theorem loopReachNP_nil {board lex soFar visited row col w} :
    ¬LoopReachNP board lex soFar visited row col [] w := by
  rintro ⟨q, hq, _⟩
  exact List.not_mem_nil q hq

theorem reachNP_iff (board : GridS) (lex : Lexicon) (row col : Int)
    (soFar : List Char) (visited : List locationT) (w : List Char) :
    ReachNP board lex row col soFar visited w ↔
      (w = soFar ++ board.cell row col ∨
        LoopReachNP board lex (soFar ++ board.cell row col)
          (visited ++ [locationT.mk row col]) row col (allCells board) w) := by
  constructor
  · intro h
    cases h with
    | here => exact Or.inl rfl
    | step hi hj hadj hnd hsub =>
      rename_i i j
      exact Or.inr ⟨(i, j), mem_allCells.mpr ⟨hi, hj⟩, hadj, hnd, hsub⟩
  · rintro (rfl | ⟨⟨i, j⟩, hq, hadj, hnd, hsub⟩)
    · exact ReachNP.here
    · exact ReachNP.step (mem_allCells.mp hq).1 (mem_allCells.mp hq).2 hadj hnd hsub

/-- Characterization of the no-pruning enumerator. -/
theorem findAllWordsNP_spec_all :
    (∀ (row col : Int) (board : GridS) (lex : Lexicon) (wordsSeen : List (List Char))
      (soFar : List Char) (visited : List locationT),
      ∀ w : List Char,
        (w ∈ (FindAllWordsNP row col board lex wordsSeen soFar visited).1 ↔
          w ∈ wordsSeen ∨ (ReachNP board lex row col soFar visited w ∧
            lex.containsWord w = true ∧ 3 < w.length)) ∧
        (w ∈ (FindAllWordsNP row col board lex wordsSeen soFar visited).2 ↔
          (w ∉ wordsSeen ∧ w ∈ (FindAllWordsNP row col board lex wordsSeen soFar visited).1))) ∧
    (∀ (board : GridS) (lex : Lexicon) (soFar : List Char) (visited : List locationT)
      (row col : Int) (cands : List (Nat × Nat)) (st : List (List Char) × List (List Char))
      (hc : ∀ q ∈ cands, q.1 < board.rows ∧ q.2 < board.cols),
      ∀ w : List Char,
        (w ∈ (FAWloopNP board lex soFar visited row col cands st hc).1 ↔
          w ∈ st.1 ∨ (LoopReachNP board lex soFar visited row col cands w ∧
            lex.containsWord w = true ∧ 3 < w.length)) ∧
        (w ∈ (FAWloopNP board lex soFar visited row col cands st hc).2 ↔
          (w ∈ st.2 ∨ (w ∉ st.1 ∧
            w ∈ (FAWloopNP board lex soFar visited row col cands st hc).1)))) := by
  apply FindAllWordsNP.mutual_induct
  · -- main body: record when fresh, then run the neighbor loop
    intro row col board lex wordsSeen soFar visited
    dsimp only
    intro ih w
    rw [FindAllWordsNP.eq_def]
    dsimp only
    by_cases hg : lex.containsWord (soFar ++ board.cell row col) = true ∧
        (soFar ++ board.cell row col) ∉ wordsSeen ∧ 3 < (soFar ++ board.cell row col).length
    · rw [dif_pos hg] at ih
      rw [if_pos hg]
      obtain ⟨ih1, ih2⟩ := ih w
      dsimp only at ih1 ih2
      constructor
      · rw [ih1]
        constructor
        · rintro (hst | ⟨hlr, hword, hlen⟩)
          · rcases mem_setAdd.mp hst with rfl | hseen
            · exact Or.inr ⟨(reachNP_iff _ _ _ _ _ _ _).mpr (Or.inl rfl), hg.1, hg.2.2⟩
            · exact Or.inl hseen
          · exact Or.inr ⟨(reachNP_iff _ _ _ _ _ _ _).mpr (Or.inr hlr), hword, hlen⟩
        · rintro (hseen | ⟨hr, hword, hlen⟩)
          · exact Or.inl (mem_setAdd.mpr (Or.inr hseen))
          · rcases (reachNP_iff _ _ _ _ _ _ _).mp hr with rfl | hlr
            · exact Or.inl (mem_setAdd.mpr (Or.inl rfl))
            · exact Or.inr ⟨hlr, hword, hlen⟩
      · rw [ih2, ih1]
        constructor
        · rintro (hmem | ⟨hnst, hin⟩)
          · rcases List.mem_singleton.mp hmem with rfl
            exact ⟨hg.2.1, Or.inl (mem_setAdd.mpr (Or.inl rfl))⟩
          · exact ⟨fun hseen => hnst (mem_setAdd.mpr (Or.inr hseen)), hin⟩
        · rintro ⟨hnseen, hin⟩
          by_cases hst : w ∈ setAdd wordsSeen (soFar ++ board.cell row col)
          · rcases mem_setAdd.mp hst with rfl | h2
            · exact Or.inl (List.mem_singleton.mpr rfl)
            · exact absurd h2 hnseen
          · exact Or.inr ⟨hst, hin⟩
    · rw [dif_neg hg] at ih
      rw [if_neg hg]
      obtain ⟨ih1, ih2⟩ := ih w
      dsimp only at ih1 ih2
      constructor
      · rw [ih1]
        constructor
        · rintro (hseen | ⟨hlr, hword, hlen⟩)
          · exact Or.inl hseen
          · exact Or.inr ⟨(reachNP_iff _ _ _ _ _ _ _).mpr (Or.inr hlr), hword, hlen⟩
        · rintro (hseen | ⟨hr, hword, hlen⟩)
          · exact Or.inl hseen
          · rcases (reachNP_iff _ _ _ _ _ _ _).mp hr with rfl | hlr
            · have hseen : soFar ++ board.cell row col ∈ wordsSeen := by
                by_contra hns
                exact hg ⟨hword, hns, hlen⟩
              exact Or.inl hseen
            · exact Or.inr ⟨hlr, hword, hlen⟩
      · rw [ih2]
        constructor
        · rintro (hmem | h)
          · exact absurd hmem (List.not_mem_nil w)
          · exact h
        · exact Or.inr
  · -- empty candidate list
    intro board lex soFar visited row col st hc hc2 w
    rw [FAWloopNP.eq_def]
    dsimp only
    constructor
    · constructor
      · exact Or.inl
      · rintro (hs | ⟨hlr, _⟩)
        · exact hs
        · exact absurd hlr loopReachNP_nil
    · constructor
      · exact Or.inl
      · rintro (hs | ⟨hns, hs2⟩)
        · exact hs
        · exact absurd hs2 hns
  · -- candidate passes the guards
    intro board lex soFar visited row col st i j rest hc hg
    dsimp only
    intro hc2 ih1 ih2 w
    rw [FAWloopNP.eq_def]
    dsimp only
    rw [if_pos hg]
    obtain ⟨ih1a, ih1b⟩ := ih1 w
    obtain ⟨ih2a, ih2b⟩ := ih2 w
    constructor
    · rw [ih2a, loopReachNP_cons]
      constructor
      · rintro (hr1 | ⟨hlr, hword, hlen⟩)
        · rcases ih1a.mp hr1 with hst | ⟨hreach, hword, hlen⟩
          · exact Or.inl hst
          · exact Or.inr ⟨Or.inl ⟨hg.1, hg.2, hreach⟩, hword, hlen⟩
        · exact Or.inr ⟨Or.inr hlr, hword, hlen⟩
      · rintro (hst | ⟨⟨hadj, hnd, hreach⟩ | hlr, hword, hlen⟩)
        · exact Or.inl (ih1a.mpr (Or.inl hst))
        · exact Or.inl (ih1a.mpr (Or.inr ⟨hreach, hword, hlen⟩))
        · exact Or.inr ⟨hlr, hword, hlen⟩
    · rw [ih2b]
      constructor
      · rintro (hmem | ⟨hnr1, hin⟩)
        · rcases List.mem_append.mp hmem with hst2 | hr2
          · exact Or.inl hst2
          · obtain ⟨hnst, hinr⟩ := ih1b.mp hr2
            exact Or.inr ⟨hnst, ih2a.mpr (Or.inl hinr)⟩
        · refine Or.inr ⟨fun hst => hnr1 (ih1a.mpr (Or.inl hst)), hin⟩
      · rintro (hst2 | ⟨hnst, hin⟩)
        · exact Or.inl (List.mem_append_left _ hst2)
        · by_cases hr1 : w ∈ (FindAllWordsNP (i : Int) (j : Int) board lex st.1 soFar visited).1
          · exact Or.inl (List.mem_append_right _ (ih1b.mpr ⟨hnst, hr1⟩))
          · exact Or.inr ⟨hr1, hin⟩
  · -- candidate fails the guards
    intro board lex soFar visited row col st i j rest hc hg hc2 ih w
    rw [FAWloopNP.eq_def]
    dsimp only
    rw [if_neg hg]
    obtain ⟨iha, ihb⟩ := ih w
    constructor
    · rw [iha, loopReachNP_cons]
      constructor
      · rintro (hst | ⟨hlr, hword, hlen⟩)
        · exact Or.inl hst
        · exact Or.inr ⟨Or.inr hlr, hword, hlen⟩
      · rintro (hst | ⟨⟨hadj, hnd, hreach⟩ | hlr, hword, hlen⟩)
        · exact Or.inl hst
        · exact absurd ⟨hadj, hnd⟩ hg
        · exact Or.inr ⟨hlr, hword, hlen⟩
    · exact ihb

def StartReachNP (board : GridS) (lex : Lexicon) (w : List Char) : Prop :=
  ∃ q ∈ allCells board, ReachNP board lex (q.1 : Int) (q.2 : Int) [] [] w

theorem computerTurnNP_fold_spec (board : GridS) (lex : Lexicon) :
    ∀ (cells : List (Nat × Nat)) (acc : List (List Char) × List (List Char))
      (w : List Char),
      (w ∈ (cells.foldl
          (fun acc p =>
            let r := FindAllWordsNP (p.1 : Int) (p.2 : Int) board lex acc.1 [] []
            (r.1, acc.2 ++ r.2)) acc).1 ↔
        w ∈ acc.1 ∨ ((∃ q ∈ cells, ReachNP board lex (q.1 : Int) (q.2 : Int) [] [] w) ∧
          lex.containsWord w = true ∧ 3 < w.length)) ∧
      (w ∈ (cells.foldl
          (fun acc p =>
            let r := FindAllWordsNP (p.1 : Int) (p.2 : Int) board lex acc.1 [] []
            (r.1, acc.2 ++ r.2)) acc).2 ↔
        (w ∈ acc.2 ∨ (w ∉ acc.1 ∧ w ∈ (cells.foldl
          (fun acc p =>
            let r := FindAllWordsNP (p.1 : Int) (p.2 : Int) board lex acc.1 [] []
            (r.1, acc.2 ++ r.2)) acc).1))) := by
  intro cells
  induction cells with
  | nil =>
    intro acc w
    constructor
    · simp
    · constructor
      · exact Or.inl
      · rintro (h | ⟨hn, hi⟩)
        · exact h
        · exact absurd hi hn
  | cons q cells ih =>
    obtain ⟨qi, qj⟩ := q
    intro acc w
    rw [List.foldl_cons]
    dsimp only
    obtain ⟨iha, ihb⟩ := ih (((FindAllWordsNP (qi : Int) (qj : Int) board lex acc.1 [] []).1,
      acc.2 ++ (FindAllWordsNP (qi : Int) (qj : Int) board lex acc.1 [] []).2)) w
    obtain ⟨sa, sb⟩ := (findAllWordsNP_spec_all.1 (qi : Int) (qj : Int) board lex acc.1 [] []) w
    constructor
    · rw [iha]
      dsimp only
      rw [sa]
      constructor
      · rintro ((hacc | ⟨hr, hword, hlen⟩) | ⟨⟨q2, hq2, hr2⟩, hword, hlen⟩)
        · exact Or.inl hacc
        · exact Or.inr ⟨⟨(qi, qj), List.mem_cons_self _ _, hr⟩, hword, hlen⟩
        · exact Or.inr ⟨⟨q2, List.mem_cons_of_mem _ hq2, hr2⟩, hword, hlen⟩
      · rintro (hacc | ⟨⟨q2, hq2, hr2⟩, hword, hlen⟩)
        · exact Or.inl (Or.inl hacc)
        · rcases List.mem_cons.mp hq2 with rfl | hq3
          · exact Or.inl (Or.inr ⟨hr2, hword, hlen⟩)
          · exact Or.inr ⟨⟨q2, hq3, hr2⟩, hword, hlen⟩
    · rw [ihb]
      dsimp only
      constructor
      · rintro (hm | ⟨hnr1, hin⟩)
        · rcases List.mem_append.mp hm with h2 | h2
          · exact Or.inl h2
          · obtain ⟨hna, hinr⟩ := sb.mp h2
            exact Or.inr ⟨hna, iha.mpr (Or.inl hinr)⟩
        · refine Or.inr ⟨fun hacc => hnr1 (sa.mpr (Or.inl hacc)), hin⟩
      · rintro (hm | ⟨hnacc, hin⟩)
        · exact Or.inl (List.mem_append_left _ hm)
        · by_cases hr1 : w ∈ (FindAllWordsNP (qi : Int) (qj : Int) board lex acc.1 [] []).1
          · exact Or.inl (List.mem_append_right _ (sb.mpr ⟨hnacc, hr1⟩))
          · exact Or.inr ⟨hr1, hin⟩

theorem computerTurnNP_spec (board : GridS) (lex : Lexicon)
    (wordsSeen : List (List Char)) (w : List Char) :
    (w ∈ (ComputerTurnNP board lex wordsSeen).1 ↔
      w ∈ wordsSeen ∨ (StartReachNP board lex w ∧ lex.containsWord w = true ∧ 3 < w.length)) ∧
    (w ∈ (ComputerTurnNP board lex wordsSeen).2 ↔
      (w ∉ wordsSeen ∧ w ∈ (ComputerTurnNP board lex wordsSeen).1)) := by
  have h := computerTurnNP_fold_spec board lex (allCells board) (wordsSeen, []) w
  unfold ComputerTurnNP
  unfold StartReachNP
  refine ⟨h.1, ?_⟩
  rw [h.2]
  dsimp only
  constructor
  · rintro (hm | h2)
    · exact absurd hm (List.not_mem_nil w)
    · exact h2
  · exact Or.inr

theorem reachNP_of_reach {board lex} {row col : Int} {soFar visited w}
    (h : Reach board lex row col soFar visited w) :
    ReachNP board lex row col soFar visited w := by
  induction h with
  | here hp => exact ReachNP.here
  | step hp hi hj hadj hnd hsub ih => exact ReachNP.step hi hj hadj hnd ih

/-- The accumulator extended by the current token is always a prefix of any
word the no-pruning enumerator reaches from there. -/
theorem reachNP_isPfx {board lex} {row col : Int} {soFar visited w}
    (h : ReachNP board lex row col soFar visited w) :
    soFar ++ board.cell row col <+: w := by
  induction h with
  | here => exact List.prefix_rfl
  | step hi hj hadj hnd hsub ih =>
    rename_i row col soFar w visited i j
    have h2 : soFar ++ board.cell row col <+:
        (soFar ++ board.cell row col) ++ board.cell (i : Int) (j : Int) :=
      List.prefix_append _ _
    exact h2.trans ih

theorem reach_of_reachNP {board lex} 
    (Hcoh : ∀ u, lex.containsWord u = true → ∀ q, q <+: u →
      lex.containsPrefix q = true)
    {row col : Int} {soFar visited w}
    (h : ReachNP board lex row col soFar visited w)
    (hword : lex.containsWord w = true) :
    Reach board lex row col soFar visited w := by
  induction h with
  | here =>
    rename_i row col soFar visited
    exact Reach.here (Hcoh _ hword _ List.prefix_rfl)
  | step hi hj hadj hnd hsub ih =>
    rename_i row col soFar w visited i j
    have hpfx : soFar ++ board.cell row col <+: w := by
      have h2 : soFar ++ board.cell row col <+:
          (soFar ++ board.cell row col) ++ board.cell (i : Int) (j : Int) :=
        List.prefix_append _ _
      exact h2.trans (reachNP_isPfx hsub)
    exact Reach.step (Hcoh _ hword _ hpfx) hi hj hadj hnd (ih hword)

/-- C3: with a lexicon satisfying the collaborator contract (every string
reported as a word has all its prefixes reported as prefixes), removing the
prefix-pruning check changes nothing: the no-pruning enumeration records
exactly the same words as the pruned one, from the same starting claimed
set. -/
theorem pruning_equivalence (board : GridS) (lex : Lexicon)
    (wordsSeen : List (List Char))
    (Hcoh : ∀ u, lex.containsWord u = true → ∀ q, q <+: u →
      lex.containsPrefix q = true)
    (w : List Char) :
    w ∈ (ComputerTurnNP board lex wordsSeen).2 ↔
      w ∈ (ComputerTurn board lex wordsSeen).2 := by
  have hnp := computerTurnNP_spec board lex wordsSeen w
  have hp := computerTurn_spec board lex wordsSeen w
  rw [hnp.2, hnp.1, hp.2, hp.1]
  constructor
  · rintro ⟨hns, hseen | ⟨⟨q, hq, hr⟩, hword, hlen⟩⟩
    · exact absurd hseen hns
    · exact ⟨hns, Or.inr ⟨⟨q, hq, reach_of_reachNP Hcoh hr hword⟩, hword, hlen⟩⟩
  · rintro ⟨hns, hseen | ⟨⟨q, hq, hr⟩, hword, hlen⟩⟩
    · exact absurd hseen hns
    · exact ⟨hns, Or.inr ⟨⟨q, hq, reachNP_of_reach hr⟩, hword, hlen⟩⟩

/-- A finite-dictionary lexicon: word query is list membership, prefix query
reports whether the string is a prefix of some dictionary word. -/
def mkLexicon (words : List (List Char)) : Lexicon :=
  Lexicon.mk (fun u => decide (u ∈ words)) (fun q => words.any fun u => decide (q <+: u))

theorem mkLexicon_coherent (words : List (List Char)) :
    ∀ u, (mkLexicon words).containsWord u = true → ∀ q, q <+: u →
      (mkLexicon words).containsPrefix q = true := by
  intro u hu q hq
  unfold mkLexicon at hu ⊢
  dsimp only at hu ⊢
  rw [List.any_eq_true]
  exact ⟨u, of_decide_eq_true hu, decide_eq_true hq⟩

/-- The CATS lexicon used by the concrete witnesses. -/
def catsLex : Lexicon := mkLexicon [catsWord]

/-- Witness for C3 at the concrete CATS board and lexicon. -/
theorem pruning_equivalence_witness :
    catsWord ∈ (ComputerTurnNP catsBoard catsLex []).2 ↔
      catsWord ∈ (ComputerTurn catsBoard catsLex []).2 :=
  pruning_equivalence catsBoard catsLex [] (mkLexicon_coherent [catsWord]) catsWord

theorem single_char_tokens_ne_nil {board : GridS}
    (H1 : ∀ q ∈ allCells board, (board.cell (q.1 : Int) (q.2 : Int)).length = 1) :
    ∀ q ∈ allCells board, board.cell (q.1 : Int) (q.2 : Int) ≠ [] := by
  intro q hq h0
  have hl := H1 q hq
  rw [h0] at hl
  simp at hl

/-- On a single-character board, a pruned-reachable word is spelled by a
`Findable`-style extension starting at the reached cell, for any predecessor
the start cell is adjacent to (in the tracer's orientation). -/
theorem reach_to_fpath {board : GridS} {lex : Lexicon}
    (H1 : ∀ q ∈ allCells board, (board.cell (q.1 : Int) (q.2 : Int)).length = 1)
    {row col : Int} {soFar : List Char} {visited : List locationT} {w : List Char}
    (h : Reach board lex row col soFar visited w) :
    0 ≤ row → row < (board.rows : Int) → 0 ≤ col → col < (board.cols : Int) →
    NotDuplicated row col visited = true →
    ∀ pr pc : Int, AreNeighbors row col pr pc = true →
      ∃ t ext, w = soFar ++ t ∧ FPath board t pr pc visited ext := by
  induction h with
  | here hp =>
    rename_i row col soFar visited
    intro h0r hrow h0c hcol hnd pr pc hadj
    obtain ⟨i, rfl⟩ : ∃ n : Nat, row = (n : Int) :=
      ⟨row.toNat, (Int.toNat_of_nonneg h0r).symm⟩
    obtain ⟨j, rfl⟩ : ∃ n : Nat, col = (n : Int) :=
      ⟨col.toNat, (Int.toNat_of_nonneg h0c).symm⟩
    have hi : i < board.rows := by exact_mod_cast hrow
    have hj : j < board.cols := by exact_mod_cast hcol
    obtain ⟨ch, hch⟩ := List.length_eq_one.mp (H1 (i, j) (mem_allCells.mpr ⟨hi, hj⟩))
    refine ⟨board.cell (i : Int) (j : Int), [locationT.mk (i : Int) (j : Int)], rfl, ?_⟩
    refine @FPath.cons board (board.cell (i : Int) (j : Int)) pr pc visited i j []
      hi hj ?_ hadj hnd ?_
    · rw [hch]
      rfl
    · rw [hch]
      exact FPath.nil _ _ _
  | step hp hi hj hadj hnd2 hsub ih =>
    rename_i row col soFar w visited i j
    intro h0r hrow h0c hcol hnd pr pc hadjpr
    obtain ⟨i0, rfl⟩ : ∃ n : Nat, row = (n : Int) :=
      ⟨row.toNat, (Int.toNat_of_nonneg h0r).symm⟩
    obtain ⟨j0, rfl⟩ : ∃ n : Nat, col = (n : Int) :=
      ⟨col.toNat, (Int.toNat_of_nonneg h0c).symm⟩
    have hi0 : i0 < board.rows := by exact_mod_cast hrow
    have hj0 : j0 < board.cols := by exact_mod_cast hcol
    have hadj2 : AreNeighbors (i : Int) (j : Int) (i0 : Int) (j0 : Int) = true := by
      rw [areNeighbors_symm_of_inRange (i : Int) (j : Int) (i0 : Int) (j0 : Int)
        (Int.natCast_nonneg i) (Int.natCast_nonneg j)
        (Int.natCast_nonneg i0) (Int.natCast_nonneg j0)]
      exact hadj
    obtain ⟨t2, ext2, hw2, hF2⟩ := ih (Int.natCast_nonneg i) (by exact_mod_cast hi)
      (Int.natCast_nonneg j) (by exact_mod_cast hj) hnd2 (i0 : Int) (j0 : Int) hadj2
    obtain ⟨ch, hch⟩ := List.length_eq_one.mp (H1 (i0, j0) (mem_allCells.mpr ⟨hi0, hj0⟩))
    refine ⟨board.cell (i0 : Int) (j0 : Int) ++ t2,
      locationT.mk (i0 : Int) (j0 : Int) :: ext2, ?_, ?_⟩
    · rw [hw2, List.append_assoc]
    · refine @FPath.cons board (board.cell (i0 : Int) (j0 : Int) ++ t2) pr pc visited
        i0 j0 ext2 hi0 hj0 ?_ hadjpr hnd ?_
      · rw [hch]
        rfl
      · rw [hch]
        exact hF2

/-- A reachable word is traceable: the seeded `Findable` call finds a path
(single-character board; the word must be fixed by case normalization). -/
theorem startReach_findable {board : GridS} {lex : Lexicon}
    (H1 : ∀ q ∈ allCells board, (board.cell (q.1 : Int) (q.2 : Int)).length = 1)
    {w : List Char} (h : StartReach board lex w)
    (hup : ConvertToUpperCase w = w) :
    Findable board w (-1) (-1) [] ≠ [] := by
  obtain ⟨⟨i, j⟩, hq, hr⟩ := h
  have hb := mem_allCells.mp hq
  have hstep := reach_to_fpath H1 hr (Int.natCast_nonneg i) (by exact_mod_cast hb.1)
    (Int.natCast_nonneg j) (by exact_mod_cast hb.2) rfl (-1) (-1)
    (areNeighbors_sentinel _ _)
  obtain ⟨t, ext, hw, hF⟩ := hstep
  rw [List.nil_append] at hw
  subst hw
  apply (findable_ne_nil_iff board w (single_char_tokens_ne_nil H1)).mpr
  rw [hup]
  exact ⟨ext, hF⟩

/-- A committed extension yields pruned reachability at its first cell, for
any accumulated prefix, as long as the full word is in the lexicon and the
lexicon is prefix-closed. -/
theorem fpath_to_reach {board : GridS} {lex : Lexicon}
    (Hcoh : ∀ u, lex.containsWord u = true → ∀ q, q <+: u →
      lex.containsPrefix q = true)
    {t : List Char} {pr pc : Int} {visited ext : List locationT}
    (hF : FPath board t pr pc visited ext) :
    ∀ soFar, lex.containsWord (soFar ++ t) = true →
    ∀ (ri ci : Int) (ext2 : List locationT), ext = locationT.mk ri ci :: ext2 →
      Reach board lex ri ci soFar visited (soFar ++ t) := by
  induction hF with
  | nil r c l =>
    intro soFar hword ri ci ext2 heq
    exact absurd heq (List.cons_ne_nil _ _).symm
  | cons hi hj hcell hadj hnd hsub ih =>
    rename_i w row col locs i j ext
    intro soFar hword ri ci ext2 heq
    injection heq with h1 h2
    injection h1 with hri hci
    subst hri
    subst hci
    subst h2
    have hpfx : soFar ++ board.cell (i : Int) (j : Int) <+: soFar ++ w := by
      refine ⟨w.drop 1, ?_⟩
      rw [hcell, List.append_assoc, List.take_append_drop]
    have hp : lex.containsPrefix (soFar ++ board.cell (i : Int) (j : Int)) = true :=
      Hcoh _ hword _ hpfx
    rcases hex : ext with _ | ⟨e2, ext3⟩
    · -- the extension stops here: the whole remaining word is this token
      subst hex
      have htk := (fpath_props board hsub).2.1
      have hdrop : w.drop 1 = [] := by
        simpa [tokensOf] using htk.symm
      have hw : w = board.cell (i : Int) (j : Int) := by
        conv_lhs => rw [← List.take_append_drop 1 w]
        rw [hdrop, List.append_nil, ← hcell]
      rw [hw]
      exact Reach.here hp
    · -- the extension continues: step to the next cell
      subst hex
      generalize hd : w.drop 1 = d at hsub
      cases hsub with
      | cons hi2 hj2 hcell2 hadj2 hnd2 hsub2 =>
        rename_i i2 j2
        have hadjflip : AreNeighbors (i : Int) (j : Int) (i2 : Int) (j2 : Int) = true := by
          rw [areNeighbors_symm_of_inRange (i : Int) (j : Int) (i2 : Int) (j2 : Int)
            (Int.natCast_nonneg i) (Int.natCast_nonneg j)
            (Int.natCast_nonneg i2) (Int.natCast_nonneg j2)]
          exact hadj2
        have hfix : (soFar ++ board.cell (i : Int) (j : Int)) ++ w.drop 1 =
            soFar ++ w := by
          rw [List.append_assoc, hcell, List.take_append_drop]
        have hword2 : lex.containsWord ((soFar ++ board.cell (i : Int) (j : Int)) ++
            w.drop 1) = true := by
          rw [hfix]
          exact hword
        have hreach2 := ih (soFar ++ board.cell (i : Int) (j : Int)) hword2
          (i2 : Int) (j2 : Int) ext3 rfl
        rw [hfix] at hreach2
        exact Reach.step hp hi2 hj2 hadjflip hnd2 hreach2

/-- A traceable lexicon word is reachable from some starting cell
(single-character board, prefix-closed lexicon, case-stable word). -/
theorem findable_startReach {board : GridS} {lex : Lexicon}
    (H1 : ∀ q ∈ allCells board, (board.cell (q.1 : Int) (q.2 : Int)).length = 1)
    (Hcoh : ∀ u, lex.containsWord u = true → ∀ q, q <+: u →
      lex.containsPrefix q = true)
    {w : List Char} (hword : lex.containsWord w = true)
    (hup : ConvertToUpperCase w = w) (hne : w ≠ [])
    (h : Findable board w (-1) (-1) [] ≠ []) : StartReach board lex w := by
  obtain ⟨ext, hF⟩ := (findable_ne_nil_iff board w (single_char_tokens_ne_nil H1)).mp h
  rw [hup] at hF
  rcases hex : ext with _ | ⟨e1, ext2⟩
  · subst hex
    have htk := (fpath_props board hF).2.1
    exact absurd (by simpa [tokensOf] using htk.symm) hne
  · subst hex
    have hinr := (fpath_props board hF).1 e1 (List.mem_cons_self _ _)
    have hword2 : lex.containsWord ([] ++ w) = true := by
      rw [List.nil_append]
      exact hword
    have hr := fpath_to_reach Hcoh hF [] hword2 e1.numRow e1.numCol ext2 (by
      rw [show locationT.mk e1.numRow e1.numCol = e1 from rfl])
    rw [List.nil_append] at hr
    obtain ⟨hr0, hrlt, hc0, hclt⟩ := hinr
    refine ⟨(e1.numRow.toNat, e1.numCol.toNat), mem_allCells.mpr ⟨?_, ?_⟩, ?_⟩
    · omega
    · omega
    · have hcast1 : ((e1.numRow.toNat : Int)) = e1.numRow := Int.toNat_of_nonneg hr0
      have hcast2 : ((e1.numCol.toNat : Int)) = e1.numCol := Int.toNat_of_nonneg hc0
      rw [show ((e1.numRow.toNat, e1.numCol.toNat).1 : Int) = e1.numRow from hcast1,
        show ((e1.numRow.toNat, e1.numCol.toNat).2 : Int) = e1.numCol from hcast2]
      exact hr

/-- C2 amended: on a board whose in-range cells are single-character tokens
(as `InitializeBoard`/`UserConfigureBoard` produce) and with a lexicon that
is prefix-closed and contains only case-normalized words, the set of words
`ComputerTurn` records for the Computer is exactly the set of words with at
least one `Findable` path, in the lexicon, of length at least 4, and not in
the claimed set at the start of the turn. -/
theorem computerTurn_agrees (board : GridS) (lex : Lexicon)
    (wordsSeen : List (List Char))
    (H1 : ∀ q ∈ allCells board, (board.cell (q.1 : Int) (q.2 : Int)).length = 1)
    (Hcoh : ∀ u, lex.containsWord u = true → ∀ q, q <+: u →
      lex.containsPrefix q = true)
    (Hup : ∀ u, lex.containsWord u = true → ConvertToUpperCase u = u)
    (w : List Char) :
    w ∈ (ComputerTurn board lex wordsSeen).2 ↔
      (Findable board w (-1) (-1) [] ≠ [] ∧ lex.containsWord w = true ∧
        4 ≤ w.length ∧ w ∉ wordsSeen) := by
  have hs := computerTurn_spec board lex wordsSeen w
  rw [hs.2, hs.1]
  constructor
  · rintro ⟨hns, hseen | ⟨hsr, hword, hlen⟩⟩
    · exact absurd hseen hns
    · exact ⟨startReach_findable H1 hsr (Hup w hword), hword, by omega, hns⟩
  · rintro ⟨hne, hword, hlen, hns⟩
    have hwne : w ≠ [] := by
      intro h0
      rw [h0] at hlen
      simp at hlen
    exact ⟨hns, Or.inr ⟨findable_startReach H1 Hcoh hword (Hup w hword) hwne hne,
      hword, by omega⟩⟩

/-- A 1x3 board bearing the tokens QU, I, Z (row-major). -/
def quizBoard : GridS :=
  GridS.mk 1 3 fun i j =>
    if i = 0 ∧ j = 0 then ['Q', 'U']
    else if i = 0 ∧ j = 1 then ['I']
    else if i = 0 ∧ j = 2 then ['Z'] else []

def quizWord : List Char := ['Q', 'U', 'I', 'Z']

def quizLex : Lexicon := mkLexicon [quizWord]

/-- C2 counterexample: on the QU/I/Z board with the dictionary {QUIZ}, the
computer records QUIZ (the enumerator appends whole tokens), yet `Findable`
finds no path for QUIZ (the tracer compares tokens with `word.substr(0,1)`),
so the recorded set is not the `Findable`-traceable set. -/
theorem computerTurn_multichar_cex :
    quizWord ∈ (ComputerTurn quizBoard quizLex []).2 ∧
      Findable quizBoard quizWord (-1) (-1) [] = [] := by
  constructor
  · have hs := computerTurn_spec quizBoard quizLex [] quizWord
    rw [hs.2, hs.1]
    refine ⟨List.not_mem_nil _, Or.inr ⟨⟨(0, 0), by decide, ?_⟩, by decide, by decide⟩⟩
    refine @Reach.step quizBoard quizLex 0 0 [] quizWord [] 0 1
      (by decide) (by decide) (by decide) (by decide) (by decide) ?_
    refine @Reach.step quizBoard quizLex 0 1 (['Q', 'U']) quizWord
      ([locationT.mk 0 0]) 0 2 (by decide) (by decide) (by decide) (by decide)
      (by decide) ?_
    exact @Reach.here quizBoard quizLex 0 2 (['Q', 'U', 'I'])
      ([locationT.mk 0 0, locationT.mk 0 1]) (by decide)
  · by_contra h
    obtain ⟨ext, hF⟩ := (findable_ne_nil_iff quizBoard quizWord (by decide)).mp h
    have hu : ConvertToUpperCase quizWord = quizWord := by decide
    rw [hu] at hF
    cases hF with
    | cons hi hj hcell hadj hnd hsub =>
      rename_i i j ext2
      have hr : quizBoard.rows = 1 := rfl
      have hc3 : quizBoard.cols = 3 := rfl
      rw [hr] at hi
      rw [hc3] at hj
      have hi0 : i = 0 := by omega
      subst hi0
      have hj3 : j = 0 ∨ j = 1 ∨ j = 2 := by omega
      rcases hj3 with rfl | rfl | rfl
      · exact absurd hcell (by decide)
      · exact absurd hcell (by decide)
      · exact absurd hcell (by decide)

theorem catsLex_upper : ∀ u, catsLex.containsWord u = true →
    ConvertToUpperCase u = u := by
  intro u hu
  have hm : u ∈ [catsWord] := of_decide_eq_true hu
  rcases List.mem_singleton.mp hm with rfl
  decide

/-- Witness for the amended C2 at the concrete CATS board and lexicon. -/
theorem computerTurn_agrees_witness :
    catsWord ∈ (ComputerTurn catsBoard catsLex []).2 ↔
      (Findable catsBoard catsWord (-1) (-1) [] ≠ [] ∧
        catsLex.containsWord catsWord = true ∧ 4 ≤ catsWord.length ∧
        catsWord ∉ ([] : List (List Char))) :=
  computerTurn_agrees catsBoard catsLex [] (by decide)
    (mkLexicon_coherent [catsWord]) catsLex_upper catsWord
